import Mathlib

/-!
# Kubernetes to StateDB reflector (`pkg/k8s/statedb.go`)

A shallow embedding of the buffering function and of `commitBuffer`, the two
closures of `k8sReflector.run`, together with a model of the StateDB table
they write to; of `RegisterReflector`, `ReflectorConfig.withDefaults` and
`cacheStoreListener.Replace`; and, in the namespace `types`, of the generated
`Node.DeepEqual` (`pkg/node/types/zz_generated.deepequal.go`).

* A table is a finite map from primary key to row.  It is kept as the list of
  its rows in strictly increasing primary-key order, the order in which
  StateDB iterates its primary index, so two tables holding the same rows are
  equal.
* The two closures take what they capture as arguments: `transform` and
  `queryAll` as `run` has resolved them (a nil `QueryAll` is `tbl.All`, a nil
  `Transform` is the identity on objects of the target type), the primary
  key `pk` of the target table, and `accessor` for `meta.Accessor`.
* A Go `panic` is `Except.error`.
* What `commitBuffer` does to the database, the initializer and the health
  reporter is recorded in order in a trace of operations.
* A Go `map[string]entry` is an association list with distinct keys.  The
  order of the list stands for the order in which `range` yields the entries;
  Go leaves that order unspecified, so statements about `commitBuffer` are
  made for every order.
-/

namespace k8s

/-! ## The StateDB table -/

section Table

variable {Obj K : Type} [LinearOrder K]

/-- Upsert of one row into a list of rows ordered by primary key: a row with
the same primary key is replaced, otherwise the row is added at its place. -/
def insertRow (pk : Obj → K) (o : Obj) : List Obj → List Obj
  | [] => [o]
  | r :: rs =>
    if pk o < pk r then o :: r :: rs
    else if pk o = pk r then o :: rs
    else r :: insertRow pk o rs

/-- Removal of the row stored under primary key `k`. -/
def deleteRow (pk : Obj → K) (k : K) (rows : List Obj) : List Obj :=
  rows.filter (fun r => decide (pk r ≠ k))

/-- The rows of a StateDB table whose primary index is `pk`, in primary-key
order; no two rows share a primary key. -/
structure Table (pk : Obj → K) where
  rows : List Obj
  sorted : rows.Pairwise (fun a b => pk a < pk b)

/-- The table without rows. -/
def Table.empty (pk : Obj → K) : Table pk :=
  ⟨[], List.Pairwise.nil⟩

/-- StateDB `Insert(txn, obj)`: the row with the primary key of `obj` becomes `obj`. -/
def Table.Insert {pk : Obj → K} (t : Table pk) (o : Obj) : Table pk :=
  ⟨insertRow pk o t.rows, by
    have key : ∀ l : List Obj, l.Pairwise (fun a b => pk a < pk b) →
        (∀ x ∈ insertRow pk o l, x = o ∨ x ∈ l) ∧
        (insertRow pk o l).Pairwise (fun a b => pk a < pk b) := by
      intro l
      induction l with
      | nil => intro _; simp [insertRow]
      | cons r rs ih =>
        intro h
        rw [List.pairwise_cons] at h
        obtain ⟨hr, hrs⟩ := h
        obtain ⟨ihm, ihs⟩ := ih hrs
        unfold insertRow
        by_cases h1 : pk o < pk r
        · rw [if_pos h1]
          refine ⟨fun x hx => ?_, ?_⟩
          · rcases List.mem_cons.1 hx with hx | hx
            · exact Or.inl hx
            · exact Or.inr hx
          · refine List.pairwise_cons.2 ⟨fun x hx => ?_, List.pairwise_cons.2 ⟨hr, hrs⟩⟩
            rcases List.mem_cons.1 hx with hx | hx
            · exact hx ▸ h1
            · exact lt_trans h1 (hr x hx)
        · by_cases h2 : pk o = pk r
          · rw [if_neg h1, if_pos h2]
            refine ⟨fun x hx => ?_, ?_⟩
            · rcases List.mem_cons.1 hx with hx | hx
              · exact Or.inl hx
              · exact Or.inr (List.mem_cons_of_mem _ hx)
            · exact List.pairwise_cons.2 ⟨fun x hx => h2 ▸ hr x hx, hrs⟩
          · rw [if_neg h1, if_neg h2]
            have h3 : pk r < pk o := lt_of_le_of_ne (not_lt.1 h1) (Ne.symm h2)
            refine ⟨fun x hx => ?_, ?_⟩
            · rcases List.mem_cons.1 hx with hx | hx
              · exact Or.inr (hx ▸ List.mem_cons_self _ _)
              · rcases ihm x hx with hx | hx
                · exact Or.inl hx
                · exact Or.inr (List.mem_cons_of_mem _ hx)
            · refine List.pairwise_cons.2 ⟨fun x hx => ?_, ihs⟩
              rcases ihm x hx with hx | hx
              · exact hx ▸ h3
              · exact hr x hx
    exact (key t.rows t.sorted).2⟩

/-- StateDB `Delete(txn, obj)`: the row with the primary key of `obj` is removed. -/
def Table.Delete {pk : Obj → K} (t : Table pk) (o : Obj) : Table pk :=
  ⟨deleteRow pk (pk o) t.rows, List.Pairwise.filter _ t.sorted⟩

/-- The row stored under primary key `k`, if any. -/
def Table.get {pk : Obj → K} (t : Table pk) (k : K) : Option Obj :=
  t.rows.find? (fun r => decide (pk r = k))

/-- StateDB `NumObjects(txn)`: the number of rows. -/
def Table.NumObjects {pk : Obj → K} (t : Table pk) : Nat :=
  t.rows.length

/-- StateDB `All(txn)`: every row, in primary-key order. -/
def Table.All {pk : Obj → K} (t : Table pk) : List Obj :=
  t.rows

/-- The rows of the table that satisfy `P`. -/
def Table.filter {pk : Obj → K} (P : Obj → Bool) (t : Table pk) : Table pk :=
  ⟨t.rows.filter P, List.Pairwise.filter _ t.sorted⟩

/-- The committed state of the database as far as the reflector is concerned:
the target table and whether the table initializer registered by
`RegisterReflector` has been marked done. -/
structure DB (pk : Obj → K) where
  table : Table pk
  initialized : Bool

end Table

/-! ## Events delivered by the change source -/

/-- The four kinds of store event (`CacheStoreEventKind`). -/
inductive CacheStoreEventKind where
  | CacheStoreEventAdd
  | CacheStoreEventUpdate
  | CacheStoreEventDelete
  | CacheStoreEventReplace
  deriving DecidableEq, Repr

/-- A value of Go type `any` as it occurs in a store event: one object from
the ListerWatcher, or a `[]any` of such objects, where `none` is the nil
slice and `some []` the empty non-nil one. -/
inductive Any (Raw : Type) where
  | object (o : Raw)
  | slice (items : Option (List Raw))
  deriving DecidableEq, Repr

/-- A store event: its kind and its payload (`CacheStoreEvent`). -/
structure CacheStoreEvent (Raw : Type) where
  Kind : CacheStoreEventKind
  Obj : Any Raw
  deriving DecidableEq, Repr

/-- The name and namespace that `meta.Accessor` reads off an object. -/
structure ObjectMeta where
  Name : String
  Namespace : String
  deriving DecidableEq, Repr

/-- The optional object transformation of the reflector (`TransformFunc`):
`none` is the result with `ok = false`, the object is skipped. -/
abbrev TransformFunc (Raw Obj : Type) := Any Raw → Option Obj

/-- The outcome of `meta.Accessor` on a payload: `none` when it returns an error. -/
abbrev Accessor (Raw : Type) := Any Raw → Option ObjectMeta

/-! ## The window (`buffer`) and the buffering function -/

/-- One pending event of the window (`entry` in `run`). -/
structure entry (Obj : Type) where
  deleted : Bool
  name : String
  namespace_ : String
  obj : Obj
  deriving DecidableEq, Repr

/-- The window (`buffer` in `run`): the items of the last Replace, if any, and
the pending events by coalescing key. -/
structure buffer (Raw Obj : Type) where
  replaceItems : Option (List Raw)
  entries : AList (fun _ : String => entry Obj)

/-- The key under which an event is stored in the window: the namespace, a
slash and the name when the namespace is not empty, the name otherwise. -/
def coalescingKey (namespace_ name : String) : String :=
  if namespace_ ≠ "" then namespace_ ++ "/" ++ name else name

/-- The buffering function given to `stream.Buffer` in `run`.  A Replace
event starts the window afresh from its items; any other event is
transformed and, unless the Transform skips it, stored under its coalescing
key.  The two panics of the Go code are the two errors. -/
def bufferFn {Raw Obj : Type} (transform : TransformFunc Raw Obj) (accessor : Accessor Raw)
    (buf : Option (buffer Raw Obj)) (ev : CacheStoreEvent Raw) : Except String (buffer Raw Obj) :=
  if ev.Kind = CacheStoreEventKind.CacheStoreEventReplace then
    match ev.Obj with
    | Any.slice items => Except.ok { replaceItems := items, entries := ∅ }
    | Any.object _ => Except.error "interface conversion: interface is not []interface"
  else
    let buf : buffer Raw Obj :=
      match buf with
      | none => { replaceItems := none, entries := ∅ }
      | some b => b
    match transform ev.Obj with
    | none => Except.ok buf
    | some obj =>
      match accessor ev.Obj with
      | none => Except.error "internal error: meta.Accessor failed"
      | some m =>
        let e : entry Obj :=
          { deleted := decide (ev.Kind = CacheStoreEventKind.CacheStoreEventDelete)
            name := m.Name
            namespace_ := m.Namespace
            obj := obj }
        Except.ok { buf with entries := buf.entries.insert (coalescingKey e.namespace_ e.name) e }

/-- The window that `stream.Buffer` has accumulated after the events `evs`,
starting from the window `buf`: the buffering function applied to each event
in turn. -/
def foldFrom {Raw Obj : Type} (transform : TransformFunc Raw Obj) (accessor : Accessor Raw)
    (buf : Option (buffer Raw Obj)) (evs : List (CacheStoreEvent Raw)) :
    Except String (Option (buffer Raw Obj)) :=
  evs.foldlM (fun b ev => (bufferFn transform accessor b ev).map some) buf

/-- The window of one buffering cycle: `stream.Buffer` starts every cycle from
the zero value, the nil window. -/
def foldWindow {Raw Obj : Type} (transform : TransformFunc Raw Obj) (accessor : Accessor Raw)
    (evs : List (CacheStoreEvent Raw)) : Except String (Option (buffer Raw Obj)) :=
  foldFrom transform accessor none evs

/-- The window `w2` holds what `w` holds, its pending events possibly in
another order: an order in which `range` may yield the entries of `w`. -/
def rangeOrder {Raw Obj : Type} (w w2 : buffer Raw Obj) : Prop :=
  w2.replaceItems = w.replaceItems ∧ w2.entries.entries.Perm w.entries.entries

/-- The pending events of a window in the order of its list. -/
def buffer.range {Raw Obj : Type} (buf : buffer Raw Obj) : List (entry Obj) :=
  buf.entries.entries.map Sigma.snd

/-- An event whose payload fits its kind: a Replace carries a slice, and the object of
another event has metadata whenever the Transform accepts it.  On such events the
buffering function does not panic. -/
def WellTyped {Raw Obj : Type} (transform : TransformFunc Raw Obj) (accessor : Accessor Raw)
    (ev : CacheStoreEvent Raw) : Prop :=
  (ev.Kind = CacheStoreEventKind.CacheStoreEventReplace → ∃ S, ev.Obj = Any.slice S) ∧
  (ev.Kind ≠ CacheStoreEventKind.CacheStoreEventReplace →
    transform ev.Obj ≠ none → accessor ev.Obj ≠ none)

/-! ## The commit -/

section Commit

variable {Raw Obj K : Type} [LinearOrder K]

/-- The optional scope query of the reflector (`QueryAllFunc`): the objects to
delete on a Replace, read from the table as the transaction sees it. -/
abbrev QueryAllFunc (pk : Obj → K) := Table pk → List Obj

/-- The query used when `QueryAll` is nil: `tbl.All(txn)`. -/
def queryAllDefault (pk : Obj → K) : QueryAllFunc pk :=
  fun tbl => tbl.All

/-- A scope query given by a predicate on rows: all rows that satisfy `P`. -/
def queryWhere (pk : Obj → K) (P : Obj → Bool) : QueryAllFunc pk :=
  fun tbl => tbl.All.filter P

/-- What `commitBuffer` does to its collaborators, in order. -/
inductive Op (Obj : Type) where
  | WriteTxn
  | QueryAll
  | Delete (o : Obj)
  | Insert (o : Obj)
  | InitDone
  | NumObjects
  | Commit
  | HealthOK (numUpserted numDeleted numTotal : Nat)
  deriving DecidableEq, Repr

/-- The open write transaction together with the two counters of
`commitBuffer` and the operations performed so far. -/
structure Txn (pk : Obj → K) where
  table : Table pk
  initialized : Bool
  numUpserted : Nat
  numDeleted : Nat
  trace : List (Op Obj)

/-- One round of the loop over the scope query: count and delete. -/
def deleteStep {pk : Obj → K} (txn : Txn pk) (obj : Obj) : Txn pk :=
  { txn with
    numDeleted := txn.numDeleted + 1
    table := txn.table.Delete obj
    trace := txn.trace ++ [Op.Delete obj] }

/-- One round of the loop over the Replace items: insert and count the item
unless the Transform skips it. -/
def replaceStep {pk : Obj → K} (transform : TransformFunc Raw Obj) (txn : Txn pk) (item : Raw) :
    Txn pk :=
  match transform (Any.object item) with
  | some obj =>
    { txn with
      table := txn.table.Insert obj
      numUpserted := txn.numUpserted + 1
      trace := txn.trace ++ [Op.Insert obj] }
  | none => txn

/-- One round of the loop over the pending events: insert or delete, and count. -/
def entryStep {pk : Obj → K} (txn : Txn pk) (e : entry Obj) : Txn pk :=
  if !e.deleted then
    { txn with
      numUpserted := txn.numUpserted + 1
      table := txn.table.Insert e.obj
      trace := txn.trace ++ [Op.Insert e.obj] }
  else
    { txn with
      numDeleted := txn.numDeleted + 1
      table := txn.table.Delete e.obj
      trace := txn.trace ++ [Op.Delete e.obj] }

/-- The Replace branch of `commitBuffer`: delete what the scope query yields,
insert the transformed items, mark the table initialized. -/
def replaceAll {pk : Obj → K} (transform : TransformFunc Raw Obj) (queryAll : QueryAllFunc pk)
    (txn : Txn pk) (items : List Raw) : Txn pk :=
  let iter := queryAll txn.table
  let txn := iter.foldl deleteStep { txn with trace := txn.trace ++ [Op.QueryAll] }
  let txn := items.foldl (replaceStep transform) txn
  { txn with initialized := true, trace := txn.trace ++ [Op.InitDone] }

/-- What a commit leaves behind: the committed database state, the three
numbers reported to the health reporter and the operations performed. -/
structure CommitResult (pk : Obj → K) where
  db : DB pk
  numUpserted : Nat
  numDeleted : Nat
  numTotal : Nat
  trace : List (Op Obj)

/-- The function `commitBuffer` of `run`: one write transaction that applies
the Replace items of the window, if it has any, then the pending events in
the order of `buf.entries`, counts the rows, commits and reports. -/
def commitBuffer {pk : Obj → K} (transform : TransformFunc Raw Obj) (queryAll : QueryAllFunc pk)
    (db : DB pk) (buf : buffer Raw Obj) : CommitResult pk :=
  let txn : Txn pk :=
    { table := db.table, initialized := db.initialized, numUpserted := 0, numDeleted := 0,
      trace := [Op.WriteTxn] }
  let txn :=
    match buf.replaceItems with
    | some items => replaceAll transform queryAll txn items
    | none => txn
  let txn := buf.range.foldl entryStep txn
  let numTotal := txn.table.NumObjects
  { db := { table := txn.table, initialized := txn.initialized }
    numUpserted := txn.numUpserted
    numDeleted := txn.numDeleted
    numTotal := numTotal
    trace := txn.trace ++ [Op.NumObjects, Op.Commit, Op.HealthOK txn.numUpserted txn.numDeleted numTotal] }

/-- The database after the windows `bufs` have been committed one after the
other. -/
def commitAll {pk : Obj → K} (transform : TransformFunc Raw Obj) (queryAll : QueryAllFunc pk)
    (db : DB pk) (bufs : List (buffer Raw Obj)) : DB pk :=
  bufs.foldl (fun d b => (commitBuffer transform queryAll d b).db) db

end Commit

/-! ## The state that a sequence of events describes -/

section Overlay

variable {Raw Obj K : Type} [LinearOrder K]

/-- The last record of `l` whose primary key is `k`. -/
def lastRecord (pk : Obj → K) (k : K) (l : List Obj) : Option Obj :=
  l.reverse.find? (fun o => decide (pk o = k))

/-- The last pending event of `es` whose record has primary key `k`. -/
def lastEntry (pk : Obj → K) (k : K) (es : List (entry Obj)) : Option (entry Obj) :=
  es.reverse.find? (fun e => decide (pk e.obj = k))

/-- The records of a Replace as the Transform lets them through, in order. -/
def transformItems (transform : TransformFunc Raw Obj) (items : List Raw) : List Obj :=
  items.filterMap (fun item => transform (Any.object item))

/-- One Add, Update or Delete event applied to a set of rows on its own: the
record is inserted, or removed for a Delete; an event that the Transform
skips changes nothing. -/
def applyEvent {pk : Obj → K} (transform : TransformFunc Raw Obj) (t : Table pk)
    (ev : CacheStoreEvent Raw) : Table pk :=
  match transform ev.Obj with
  | none => t
  | some obj =>
    if ev.Kind = CacheStoreEventKind.CacheStoreEventDelete then t.Delete obj else t.Insert obj

/-- The records of a Replace overlaid with the events that followed it, each
event applied in the order of arrival. -/
def overlay (pk : Obj → K) (transform : TransformFunc Raw Obj) (items : List Raw)
    (evs : List (CacheStoreEvent Raw)) : Table pk :=
  evs.foldl (applyEvent transform) ((transformItems transform items).foldl Table.Insert (Table.empty pk))

end Overlay

/-! ## The pending event of an event -/

section Pending

variable {Raw Obj K : Type} [LinearOrder K]

/-- The pending event that an Add, Update or Delete event stands for, with its
coalescing key: none when the Transform skips the object or the object has no
metadata. -/
def eventEntry (transform : TransformFunc Raw Obj) (accessor : Accessor Raw)
    (ev : CacheStoreEvent Raw) : Option (String × entry Obj) :=
  match transform ev.Obj with
  | none => none
  | some obj =>
    match accessor ev.Obj with
    | none => none
    | some m =>
      some (coalescingKey m.Namespace m.Name,
        { deleted := decide (ev.Kind = CacheStoreEventKind.CacheStoreEventDelete)
          name := m.Name
          namespace_ := m.Namespace
          obj := obj })

/-- Whether the event is accepted by the Transform and has coalescing key `k`. -/
def hitsKey (transform : TransformFunc Raw Obj) (accessor : Accessor Raw) (k : String)
    (ev : CacheStoreEvent Raw) : Bool :=
  match eventEntry transform accessor ev with
  | some x => decide (x.1 = k)
  | none => false

/-- Whether the event is accepted by the Transform with a record of primary key `p`. -/
def hitsPk (pk : Obj → K) (transform : TransformFunc Raw Obj) (p : K)
    (ev : CacheStoreEvent Raw) : Bool :=
  match transform ev.Obj with
  | some obj => decide (pk obj = p)
  | none => false

/-- The pending events of a window that may be absent. -/
def entriesOf (b : Option (buffer Raw Obj)) : AList (fun _ : String => entry Obj) :=
  match b with
  | some w => w.entries
  | none => ∅

/-- The baseline of a window that may be absent. -/
def replaceItemsOf (b : Option (buffer Raw Obj)) : Option (List Raw) :=
  match b with
  | some w => w.replaceItems
  | none => none

end Pending

/-! ## A concrete reflector, for examples -/

/-- A Kubernetes object reduced to its namespace, its name and one value. -/
structure Rec where
  namespace_ : String
  name : String
  val : Nat
  deriving DecidableEq, Repr

/-- A Transform that passes every object on unchanged. -/
def Rec.transform : TransformFunc Rec Rec
  | Any.object r => some r
  | Any.slice _ => none

/-- The accessor of the example objects: every object has its metadata, a slice has none. -/
def Rec.accessor : Accessor Rec
  | Any.object r => some { Name := r.name, Namespace := r.namespace_ }
  | Any.slice _ => none

/-- A table keyed by object name. -/
def Rec.byName (r : Rec) : List Char := r.name.data

/-- A Transform that skips the objects whose value is zero and passes the others on. -/
def Rec.nonZero : TransformFunc Rec Rec
  | Any.object r => if r.val = 0 then none else some r
  | Any.slice _ => none

/-- The empty table of example objects keyed by name, its initializer not yet done. -/
def Rec.emptyDB : DB Rec.byName :=
  { table := Table.empty Rec.byName, initialized := false }

/-- An Add and then an Update of the object `ns/k`. -/
def Rec.addThenUpdate : List (CacheStoreEvent Rec) :=
  [{ Kind := CacheStoreEventKind.CacheStoreEventAdd, Obj := Any.object ⟨"ns", "k", 1⟩ },
   { Kind := CacheStoreEventKind.CacheStoreEventUpdate, Obj := Any.object ⟨"ns", "k", 2⟩ }]

/-- The window without baseline in which the Update of `ns/k` is pending. -/
def Rec.updatePending : buffer Rec Rec :=
  { replaceItems := none
    entries := AList.insert "ns/k" (⟨false, "k", "ns", ⟨"ns", "k", 2⟩⟩ : entry Rec) ∅ }

/-- The window with an empty non-nil baseline and nothing pending. -/
def Rec.emptyBaseline : buffer Rec Rec :=
  { replaceItems := some [], entries := ∅ }

/-- The window whose baseline holds the objects `a` (value 1), `z` (value 0) and `b` (value 2). -/
def Rec.baselineWithZero : buffer Rec Rec :=
  { replaceItems := some ([⟨"", "a", 1⟩] ++ ⟨"", "z", 0⟩ :: [⟨"", "b", 2⟩]), entries := ∅ }

/-- An Add of the object `ns/k` with value 1 and then an Update of it to value 0. -/
def Rec.addThenZeroUpdate : List (CacheStoreEvent Rec) :=
  [{ Kind := CacheStoreEventKind.CacheStoreEventAdd, Obj := Any.object ⟨"ns", "k", 1⟩ },
   { Kind := CacheStoreEventKind.CacheStoreEventUpdate, Obj := Any.object ⟨"ns", "k", 0⟩ }]

/-- The window without baseline in which the Add of `ns/k` with value 1 is pending. -/
def Rec.addPending : buffer Rec Rec :=
  { replaceItems := none
    entries := AList.insert "ns/k" (⟨false, "k", "ns", ⟨"ns", "k", 1⟩⟩ : entry Rec) ∅ }

/-- The object `x` of namespace `ns1` with value 0, as a baseline would list it. -/
def Rec.x0 : Rec := ⟨"ns1", "x", 0⟩

/-- The object `x` of namespace `ns1` with value 1. -/
def Rec.x1 : Rec := ⟨"ns1", "x", 1⟩

/-- The object `x` of namespace `ns2`. -/
def Rec.x2 : Rec := ⟨"ns2", "x", 2⟩

/-- An Add of `ns1/x` and then a Delete of `ns2/x`: two objects with the same name. -/
def Rec.addThenDeleteOther : List (CacheStoreEvent Rec) :=
  [{ Kind := CacheStoreEventKind.CacheStoreEventAdd, Obj := Any.object Rec.x1 },
   { Kind := CacheStoreEventKind.CacheStoreEventDelete, Obj := Any.object Rec.x2 }]

/-- The pending Add of `ns1/x`. -/
def Rec.addX1 : entry Rec := ⟨false, "x", "ns1", Rec.x1⟩

/-- The pending Delete of `ns2/x`. -/
def Rec.deleteX2 : entry Rec := ⟨true, "x", "ns2", Rec.x2⟩

/-- The window of `Rec.addThenDeleteOther`, ranged over with the Delete first. -/
def Rec.deleteFirst (replaceItems : Option (List Rec)) : buffer Rec Rec :=
  { replaceItems := replaceItems
    entries := AList.insert "ns2/x" Rec.deleteX2 (AList.insert "ns1/x" Rec.addX1 ∅) }

/-- The window of `Rec.addThenDeleteOther`, ranged over with the Add first. -/
def Rec.addFirst (replaceItems : Option (List Rec)) : buffer Rec Rec :=
  { replaceItems := replaceItems
    entries := AList.insert "ns1/x" Rec.addX1 (AList.insert "ns2/x" Rec.deleteX2 ∅) }

/-- A database whose table holds the row `ns/k` with value 0. -/
def Rec.dbWithK : DB Rec.byName :=
  { table := (Table.empty Rec.byName).Insert ⟨"ns", "k", 0⟩, initialized := false }

/-- An Add, an Update and then a Delete of the object `ns/k`. -/
def Rec.addUpdateDelete : List (CacheStoreEvent Rec) :=
  [{ Kind := CacheStoreEventKind.CacheStoreEventAdd, Obj := Any.object ⟨"ns", "k", 1⟩ },
   { Kind := CacheStoreEventKind.CacheStoreEventUpdate, Obj := Any.object ⟨"ns", "k", 2⟩ },
   { Kind := CacheStoreEventKind.CacheStoreEventDelete, Obj := Any.object ⟨"ns", "k", 2⟩ }]

/-- The window without baseline in which the Delete of `ns/k` is pending. -/
def Rec.deletePending : buffer Rec Rec :=
  { replaceItems := none
    entries := AList.insert "ns/k" (⟨true, "k", "ns", ⟨"ns", "k", 2⟩⟩ : entry Rec) ∅ }

/-- The scope of a reflector that owns the rows of namespace `ns1`. -/
def Rec.inNs1 (r : Rec) : Bool := decide (r.namespace_ = "ns1")

/-- A database whose table, keyed by name, holds the row `x` of namespace `ns2`. -/
def Rec.dbWithX2 : DB Rec.byName :=
  { table := (Table.empty Rec.byName).Insert Rec.x2, initialized := false }

/-- The object `y` of namespace `ns2`. -/
def Rec.y2 : Rec := ⟨"ns2", "y", 5⟩

/-- The object `z` of namespace `ns1`. -/
def Rec.z1 : Rec := ⟨"ns1", "z", 1⟩

/-- The window that holds only a Replace with the items `S`. -/
def replaceOnly {Raw : Type} (Obj : Type) (S : List Raw) : buffer Raw Obj :=
  { replaceItems := some S, entries := ∅ }

/-- The object `A` with value 1. -/
def Rec.a1 : Rec := ⟨"", "A", 1⟩

/-- The object `A` with value 2. -/
def Rec.a2 : Rec := ⟨"", "A", 2⟩

/-- The object `B` with value 5. -/
def Rec.b5 : Rec := ⟨"", "B", 5⟩

/-- The object `C` with value 9. -/
def Rec.c9 : Rec := ⟨"", "C", 9⟩

/-- The events Replace({A:1}), Update(A,2), Replace({B:5}), Add(C,9). -/
def Rec.twoReplaces : List (CacheStoreEvent Rec) :=
  [{ Kind := CacheStoreEventKind.CacheStoreEventReplace, Obj := Any.slice (some [Rec.a1]) },
   { Kind := CacheStoreEventKind.CacheStoreEventUpdate, Obj := Any.object Rec.a2 }] ++
  { Kind := CacheStoreEventKind.CacheStoreEventReplace, Obj := Any.slice (some [Rec.b5]) } ::
  [{ Kind := CacheStoreEventKind.CacheStoreEventAdd, Obj := Any.object Rec.c9 }]

/-- The window of `Rec.twoReplaces`: the baseline {B:5} and the pending Add of C. -/
def Rec.twoReplacesWindow : buffer Rec Rec :=
  { replaceItems := some [Rec.b5]
    entries := AList.insert "C" (⟨false, "C", "", Rec.c9⟩ : entry Rec) ∅ }

/-- A Replace with no items followed by the Add of `ns1/x` and the Delete of `ns2/x`. -/
def Rec.replaceThenAddDelete : List (CacheStoreEvent Rec) :=
  { Kind := CacheStoreEventKind.CacheStoreEventReplace, Obj := Any.slice (some []) } ::
    Rec.addThenDeleteOther

/-! ## The change source adapter -/

/-- The store handed to the cache reflector (`cacheStoreListener`): four
handlers, each with the effect `Out` of a call. -/
structure cacheStoreListener (Raw Out : Type) where
  onAdd : Any Raw → Out
  onUpdate : Any Raw → Out
  onDelete : Any Raw → Out
  onReplace : Option (List Raw) → Out

/-- The method `Replace` of the listener: a nil slice of items is replaced by
the empty non-nil slice before the handler is called.  The result is the effect
of the handler and the returned error, which is always nil. -/
def cacheStoreListener.Replace {Raw Out : Type} (s : cacheStoreListener Raw Out)
    (items : Option (List Raw)) (_resourceVersion : String) : Out × Option String :=
  let items : Option (List Raw) :=
    if items.isNone then some [] else items
  (s.onReplace items, none)

/-- The store that `ListerWatcherToObservable` builds: each handler passes one
event on to `next`; the effect of a call is the list of events passed on. -/
def observableStore (Raw : Type) : cacheStoreListener Raw (List (CacheStoreEvent Raw)) :=
  { onAdd := fun obj => [{ Kind := CacheStoreEventKind.CacheStoreEventAdd, Obj := obj }]
    onUpdate := fun obj => [{ Kind := CacheStoreEventKind.CacheStoreEventUpdate, Obj := obj }]
    onDelete := fun obj => [{ Kind := CacheStoreEventKind.CacheStoreEventDelete, Obj := obj }]
    onReplace := fun objs =>
      [{ Kind := CacheStoreEventKind.CacheStoreEventReplace, Obj := Any.slice objs }] }

/-! ## Registration and configuration -/

/-- Modelled from the spec: the declaration of `time.Millisecond` in `pkg/time` is not
among the sources; a `time.Duration` counts nanoseconds, so that the default wait time
of `50 * time.Millisecond` is the 50 ms the specification names. -/
def Millisecond : Int := 1000000

/-- The constant `DefaultBufferSize`. -/
def DefaultBufferSize : Int := 10000

/-- The constant `DefaultBufferWaitTime`. -/
def DefaultBufferWaitTime : Int := 50 * Millisecond

/-- The error `errListerWatcherNil`. -/
def errListerWatcherNil : String := "ReflectorConfig.ListerWatcher must be defined (was nil)"

section Register

variable {Raw Obj K : Type} [LinearOrder K]

/-- The configuration of a reflector (`ReflectorConfig`); `LW` is the type of
ListerWatchers, and a nil interface or function value is `none`. -/
structure ReflectorConfig (Raw LW : Type) (pk : Obj → K) where
  BufferSize : Int
  BufferWaitTime : Int
  ListerWatcher : Option LW
  Transform : Option (TransformFunc Raw Obj)
  QueryAll : Option (QueryAllFunc pk)

/-- The method `withDefaults`: the two fields left zero get their default values. -/
def ReflectorConfig.withDefaults {LW : Type} {pk : Obj → K} (cfg : ReflectorConfig Raw LW pk) :
    ReflectorConfig Raw LW pk :=
  let cfg := if cfg.BufferSize = 0 then { cfg with BufferSize := DefaultBufferSize } else cfg
  let cfg :=
    if cfg.BufferWaitTime = 0 then { cfg with BufferWaitTime := DefaultBufferWaitTime } else cfg
  cfg

/-- A one-shot job as `RegisterReflector` adds it to the job group: its name and the
configuration of the reflector whose `run` it will call. -/
structure OneShot (Raw LW : Type) (pk : Obj → K) where
  name : String
  reflector : ReflectorConfig Raw LW pk

/-- What `RegisterReflector` acts on: the number of write transactions opened on the
database, the initializers registered on the target table, and the jobs of the job
group. -/
structure Hive (Raw LW : Type) (pk : Obj → K) where
  writeTxns : Nat
  commits : Nat
  initializers : List String
  jobs : List (OneShot Raw LW pk)

/-- The function `RegisterReflector`: without a ListerWatcher it returns the error at
once; otherwise it registers the table initializer in a write transaction of its own,
adds the job that runs the reflector and returns nil.  `typeName` is the `%T` of the
object type in the name of the job. -/
def RegisterReflector {LW : Type} {pk : Obj → K} (typeName : String) (h : Hive Raw LW pk)
    (cfg : ReflectorConfig Raw LW pk) : Option String × Hive Raw LW pk :=
  if cfg.ListerWatcher.isNone then
    (some errListerWatcherNil, h)
  else
    let r := cfg.withDefaults
    let h := { h with writeTxns := h.writeTxns + 1 }
    let h := { h with initializers := h.initializers ++ ["k8s-reflector"] }
    let h := { h with commits := h.commits + 1 }
    let h := { h with jobs := h.jobs ++ [{ name := "k8s-reflector-[" ++ typeName ++ "]", reflector := r }] }
    (none, h)

end Register

/-- The operation that a pending event performs on the table. -/
def entry.op {Obj : Type} (e : entry Obj) : Op Obj :=
  if e.deleted then Op.Delete e.obj else Op.Insert e.obj

/-- A configuration of the example reflector with both buffer fields left zero and a
ListerWatcher set. -/
def Rec.zeroConfig : ReflectorConfig Rec Unit Rec.byName :=
  { BufferSize := 0, BufferWaitTime := 0, ListerWatcher := some (), Transform := none,
    QueryAll := none }

/-- A hive in which nothing has been registered. -/
def Rec.emptyHive : Hive Rec Unit Rec.byName :=
  { writeTxns := 0, commits := 0, initializers := [], jobs := [] }

/-- The pending Delete of `ns2/y`. -/
def Rec.deleteY2 : entry Rec := ⟨true, "y", "ns2", Rec.y2⟩

/-- The window without baseline in which the Add of `ns1/x` and the Delete of `ns2/y` are
pending, ranged over with the Delete first. -/
def Rec.twoPending : buffer Rec Rec :=
  { replaceItems := none
    entries := AList.insert "ns2/y" Rec.deleteY2 (AList.insert "ns1/x" Rec.addX1 ∅) }

/-- The window of `Rec.twoPending`, ranged over with the Add first. -/
def Rec.twoPendingSwapped : buffer Rec Rec :=
  { replaceItems := none
    entries := AList.insert "ns1/x" Rec.addX1 (AList.insert "ns2/y" Rec.deleteY2 ∅) }

end k8s

namespace types

/-! ## Deep equality of nodes (`pkg/node/types`) -/

/-- Modelled from the spec: the declaration of the struct `Node` is not among the
sources; its fields are those that `DeepEqual` reads, in the order in which it reads
them.  A slice or a map is `none` when nil, a pointer is `none` when nil, an IP is its
slice of bytes, and the scalar fields, compared with `!=` only, are strings and numbers.
`Address` is the type of the IP addresses of the node and `CIDR` what a non-nil
`*cidr.CIDR` points to. -/
structure Node (Address CIDR : Type) where
  Name : String
  Cluster : String
  IPAddresses : Option (List Address)
  IPv4AllocCIDR : Option CIDR
  IPv4SecondaryAllocCIDRs : Option (List CIDR)
  IPv6AllocCIDR : Option CIDR
  IPv6SecondaryAllocCIDRs : Option (List CIDR)
  IPv4HealthIP : Option (List Nat)
  IPv6HealthIP : Option (List Nat)
  IPv4IngressIP : Option (List Nat)
  IPv6IngressIP : Option (List Nat)
  ClusterID : Nat
  Source : String
  EncryptionKey : Nat
  Labels : Option (AList (fun _ : String => String))
  Annotations : Option (AList (fun _ : String => String))
  NodeIdentity : Nat
  WireguardPubKey : String
  BootID : String

/-- The block that deepequal-gen emits for a slice field, with `eq` the comparison of two
elements: when both slices are non-nil, or exactly one is nil, the lengths are compared
and then the elements index by index; two nil slices are not looked at.  The check
`other == nil` of the block is on the address of a field and never holds. -/
def sliceDeepEqual {α : Type} (eq : α → α → Bool) (a b : Option (List α)) : Bool :=
  if (a.isSome && b.isSome) || (a.isNone != b.isNone) then
    let x := a.getD []
    let y := b.getD []
    if x.length ≠ y.length then false
    else (x.zip y).all (fun p => eq p.1 p.2)
  else true

/-- The block that deepequal-gen emits for a pointer field: false when exactly one pointer
is nil, the comparison of what they point to when both are set. -/
def ptrDeepEqual {α : Type} (eq : α → α → Bool) (a b : Option α) : Bool :=
  if a.isNone != b.isNone then false
  else
    match a, b with
    | some x, some y => eq x y
    | _, _ => true

/-- The block that deepequal-gen emits for a map of strings: when both maps are non-nil,
or exactly one is nil, the sizes are compared and then every key of the first map must be
present in the second with the same value. -/
def mapDeepEqual (a b : Option (AList (fun _ : String => String))) : Bool :=
  if (a.isSome && b.isSome) || (a.isNone != b.isNone) then
    let x := a.getD ∅
    let y := b.getD ∅
    if x.entries.length ≠ y.entries.length then false
    else
      x.entries.all (fun kv =>
        match y.lookup kv.1 with
        | none => false
        | some otherValue => decide (kv.2 = otherValue))
  else true

/-- The generated method `Node.DeepEqual`; the receiver is non-nil, `other` may be nil.
`addrEq` and `cidrEq` are the `DeepEqual` of the two element types. -/
def Node.DeepEqual {Address CIDR : Type} (addrEq : Address → Address → Bool)
    (cidrEq : CIDR → CIDR → Bool) (in_ : Node Address CIDR) (other : Option (Node Address CIDR)) :
    Bool :=
  match other with
  | none => false
  | some other =>
    if in_.Name ≠ other.Name then false
    else if in_.Cluster ≠ other.Cluster then false
    else if !sliceDeepEqual addrEq in_.IPAddresses other.IPAddresses then false
    else if !ptrDeepEqual cidrEq in_.IPv4AllocCIDR other.IPv4AllocCIDR then false
    else if !sliceDeepEqual cidrEq in_.IPv4SecondaryAllocCIDRs other.IPv4SecondaryAllocCIDRs then
      false
    else if !ptrDeepEqual cidrEq in_.IPv6AllocCIDR other.IPv6AllocCIDR then false
    else if !sliceDeepEqual cidrEq in_.IPv6SecondaryAllocCIDRs other.IPv6SecondaryAllocCIDRs then
      false
    else if !sliceDeepEqual (fun x y => decide (x = y)) in_.IPv4HealthIP other.IPv4HealthIP then
      false
    else if !sliceDeepEqual (fun x y => decide (x = y)) in_.IPv6HealthIP other.IPv6HealthIP then
      false
    else if !sliceDeepEqual (fun x y => decide (x = y)) in_.IPv4IngressIP other.IPv4IngressIP then
      false
    else if !sliceDeepEqual (fun x y => decide (x = y)) in_.IPv6IngressIP other.IPv6IngressIP then
      false
    else if in_.ClusterID ≠ other.ClusterID then false
    else if in_.Source ≠ other.Source then false
    else if in_.EncryptionKey ≠ other.EncryptionKey then false
    else if !mapDeepEqual in_.Labels other.Labels then false
    else if !mapDeepEqual in_.Annotations other.Annotations then false
    else if in_.NodeIdentity ≠ other.NodeIdentity then false
    else if in_.WireguardPubKey ≠ other.WireguardPubKey then false
    else if in_.BootID ≠ other.BootID then false
    else true

/-- Two slices have the same length and equal elements at every index; a nil slice has
length zero. -/
def sameElements {α : Type} (a b : Option (List α)) : Prop :=
  (a.getD []).length = (b.getD []).length ∧
  ∀ i, i < (a.getD []).length → (a.getD [])[i]? = (b.getD [])[i]?

/-- Two optional values are absent in both or present in both and equal. -/
def sameOptional {α : Type} (a b : Option α) : Prop :=
  (a = none ∧ b = none) ∨ ∃ x, a = some x ∧ b = some x

/-- Two maps hold the same key and value pairs; a nil map holds none. -/
def sameMap (a b : Option (AList (fun _ : String => String))) : Prop :=
  ∀ k v, (a.getD ∅).lookup k = some v ↔ (b.getD ∅).lookup k = some v

/-- Two nodes are deeply equal field by field. -/
def Node.deeplyEqual {Address CIDR : Type} (a b : Node Address CIDR) : Prop :=
  a.Name = b.Name ∧ a.Cluster = b.Cluster ∧
  sameElements a.IPAddresses b.IPAddresses ∧
  sameOptional a.IPv4AllocCIDR b.IPv4AllocCIDR ∧
  sameElements a.IPv4SecondaryAllocCIDRs b.IPv4SecondaryAllocCIDRs ∧
  sameOptional a.IPv6AllocCIDR b.IPv6AllocCIDR ∧
  sameElements a.IPv6SecondaryAllocCIDRs b.IPv6SecondaryAllocCIDRs ∧
  sameElements a.IPv4HealthIP b.IPv4HealthIP ∧
  sameElements a.IPv6HealthIP b.IPv6HealthIP ∧
  sameElements a.IPv4IngressIP b.IPv4IngressIP ∧
  sameElements a.IPv6IngressIP b.IPv6IngressIP ∧
  a.ClusterID = b.ClusterID ∧ a.Source = b.Source ∧ a.EncryptionKey = b.EncryptionKey ∧
  sameMap a.Labels b.Labels ∧ sameMap a.Annotations b.Annotations ∧
  a.NodeIdentity = b.NodeIdentity ∧ a.WireguardPubKey = b.WireguardPubKey ∧
  a.BootID = b.BootID

/-- Two slices are the same, or one is nil and the other is empty and not nil. -/
def nilOrEmptySlice {α : Type} (a b : Option (List α)) : Prop :=
  a = b ∨ (a = none ∧ b = some []) ∨ (a = some [] ∧ b = none)

/-- Two maps are the same, or one is nil and the other is empty and not nil. -/
def nilOrEmptyMap (a b : Option (AList (fun _ : String => String))) : Prop :=
  a = b ∨ (a = none ∧ b = some ∅) ∨ (a = some ∅ ∧ b = none)

/-- Two nodes differ at most in that slice or map fields are nil in one and empty but not
nil in the other. -/
def Node.nilEmptyVariant {Address CIDR : Type} (a b : Node Address CIDR) : Prop :=
  a.Name = b.Name ∧ a.Cluster = b.Cluster ∧
  nilOrEmptySlice a.IPAddresses b.IPAddresses ∧
  a.IPv4AllocCIDR = b.IPv4AllocCIDR ∧
  nilOrEmptySlice a.IPv4SecondaryAllocCIDRs b.IPv4SecondaryAllocCIDRs ∧
  a.IPv6AllocCIDR = b.IPv6AllocCIDR ∧
  nilOrEmptySlice a.IPv6SecondaryAllocCIDRs b.IPv6SecondaryAllocCIDRs ∧
  nilOrEmptySlice a.IPv4HealthIP b.IPv4HealthIP ∧
  nilOrEmptySlice a.IPv6HealthIP b.IPv6HealthIP ∧
  nilOrEmptySlice a.IPv4IngressIP b.IPv4IngressIP ∧
  nilOrEmptySlice a.IPv6IngressIP b.IPv6IngressIP ∧
  a.ClusterID = b.ClusterID ∧ a.Source = b.Source ∧ a.EncryptionKey = b.EncryptionKey ∧
  nilOrEmptyMap a.Labels b.Labels ∧ nilOrEmptyMap a.Annotations b.Annotations ∧
  a.NodeIdentity = b.NodeIdentity ∧ a.WireguardPubKey = b.WireguardPubKey ∧
  a.BootID = b.BootID

/-- A node with every slice and map nil and no CIDR. -/
def Node.bare : Node Nat Nat :=
  { Name := "n", Cluster := "c", IPAddresses := none, IPv4AllocCIDR := none,
    IPv4SecondaryAllocCIDRs := none, IPv6AllocCIDR := none, IPv6SecondaryAllocCIDRs := none,
    IPv4HealthIP := none, IPv6HealthIP := none, IPv4IngressIP := none, IPv6IngressIP := none,
    ClusterID := 1, Source := "s", EncryptionKey := 0, Labels := none, Annotations := none,
    NodeIdentity := 2, WireguardPubKey := "", BootID := "" }

/-- The node `Node.bare` with empty, non-nil addresses and labels. -/
def Node.bareEmpty : Node Nat Nat :=
  { Node.bare with IPAddresses := some [], Labels := some ∅ }

end types

namespace k8s

/-! ## Lemmas on the table -/

section TableLemmas

variable {Obj K : Type} [LinearOrder K] {pk : Obj → K}

theorem find_insertRow (o : Obj) (k : K) (l : List Obj) :
    (insertRow pk o l).find? (fun r => decide (pk r = k)) =
      if pk o = k then some o else l.find? (fun r => decide (pk r = k)) := by
  induction l with
  | nil => by_cases h : pk o = k <;> simp [insertRow, h]
  | cons r rs ih =>
    unfold insertRow
    by_cases h1 : pk o < pk r
    · rw [if_pos h1]
      by_cases h : pk o = k <;> simp [List.find?_cons, h]
    · by_cases h2 : pk o = pk r
      · rw [if_neg h1, if_pos h2]
        by_cases h : pk o = k
        · simp [List.find?_cons, h]
        · have h3 : ¬ pk r = k := fun e => h (h2.trans e)
          simp [List.find?_cons, h, h3]
      · rw [if_neg h1, if_neg h2]
        by_cases h : pk o = k
        · have h3 : ¬ pk r = k := fun e => h2 (h.trans e.symm)
          simp [List.find?_cons, h3, ih, h]
        · by_cases h3 : pk r = k <;> simp [List.find?_cons, h3, ih, h]

theorem Table.get_Insert (t : Table pk) (o : Obj) (k : K) :
    (t.Insert o).get k = if pk o = k then some o else t.get k :=
  find_insertRow o k t.rows

theorem Table.get_Delete (t : Table pk) (o : Obj) (k : K) :
    (t.Delete o).get k = if pk o = k then none else t.get k := by
  unfold Table.get Table.Delete deleteRow
  simp only [List.find?_filter]
  by_cases h : pk o = k
  · rw [if_pos h]
    apply List.find?_eq_none.2
    intro x _
    simp only [decide_eq_true_eq, not_and, decide_not, Bool.not_eq_true', decide_eq_false_iff_not]
    intro hx hk
    exact hx (hk.trans h.symm)
  · rw [if_neg h]
    congr 1
    funext x
    by_cases hx : pk x = k
    · have : ¬ k = pk o := fun e => h e.symm
      simp [hx, this]
    · simp [hx]

theorem Table.get_empty (k : K) : (Table.empty pk).get k = none := rfl

theorem Table.get_eq_some_iff (t : Table pk) (k : K) (o : Obj) :
    t.get k = some o ↔ o ∈ t.rows ∧ pk o = k := by
  constructor
  · intro h
    refine ⟨List.mem_of_find?_eq_some h, ?_⟩
    simpa using List.find?_some h
  · rintro ⟨hm, hk⟩
    have hs := t.sorted
    unfold Table.get
    generalize t.rows = l at hm hs
    induction l with
    | nil => cases hm
    | cons r rs ih =>
      rw [List.pairwise_cons] at hs
      rcases List.mem_cons.1 hm with hm | hm
      · subst hm
        simp [List.find?_cons, hk]
      · have hlt : pk r < pk o := hs.1 o hm
        have hne : ¬ pk r = k := fun e => (ne_of_lt hlt) (e.trans hk.symm)
        simp only [List.find?_cons, hne, decide_False]
        exact ih hm hs.2

theorem Table.mem_rows_iff (t : Table pk) (o : Obj) :
    o ∈ t.rows ↔ t.get (pk o) = some o := by
  rw [Table.get_eq_some_iff]
  exact ⟨fun h => ⟨h, rfl⟩, fun h => h.1⟩

theorem Table.ext_rows {t1 t2 : Table pk} (h : t1.rows = t2.rows) : t1 = t2 := by
  cases t1; cases t2; cases h; rfl

theorem Table.ext_get {t1 t2 : Table pk} (h : ∀ k, t1.get k = t2.get k) : t1 = t2 := by
  apply Table.ext_rows
  have hmem : ∀ a, a ∈ t1.rows ↔ a ∈ t2.rows := by
    intro a
    rw [Table.mem_rows_iff, Table.mem_rows_iff, h]
  have nd : ∀ t : Table pk, t.rows.Nodup := fun t =>
    List.Pairwise.imp (fun hab e => (ne_of_lt hab) (congrArg pk e)) t.sorted
  have hp : t1.rows.Perm t2.rows := (List.perm_ext_iff_of_nodup (nd t1) (nd t2)).2 hmem
  haveI : IsAntisymm Obj (fun a b => pk a < pk b) :=
    ⟨fun a b hab hba => absurd hba (lt_asymm hab)⟩
  exact List.eq_of_perm_of_sorted hp t1.sorted t2.sorted

theorem Table.get_filter (P : Obj → Bool) (t : Table pk) (k : K) :
    (Table.filter P t).get k = (t.get k).filter P := by
  cases hg : t.get k with
  | none =>
    have h1 : ∀ o, ¬ (Table.filter P t).get k = some o := by
      intro o ho
      rw [Table.get_eq_some_iff] at ho
      have hm : o ∈ t.rows := (List.mem_filter.1 ho.1).1
      have := (Table.get_eq_some_iff t k o).2 ⟨hm, ho.2⟩
      rw [hg] at this
      cases this
    cases hf : (Table.filter P t).get k with
    | none => rfl
    | some o => exact absurd hf (h1 o)
  | some o =>
    have ho := (Table.get_eq_some_iff t k o).1 hg
    by_cases hP : P o = true
    · have : (Table.filter P t).get k = some o :=
        (Table.get_eq_some_iff _ k o).2 ⟨List.mem_filter.2 ⟨ho.1, hP⟩, ho.2⟩
      simp [this, Option.filter, hP]
    · have h1 : ∀ o2, ¬ (Table.filter P t).get k = some o2 := by
        intro o2 ho2
        rw [Table.get_eq_some_iff] at ho2
        have hm : o2 ∈ t.rows := (List.mem_filter.1 ho2.1).1
        have h2 := (Table.get_eq_some_iff t k o2).2 ⟨hm, ho2.2⟩
        rw [hg] at h2
        cases h2
        exact hP (List.mem_filter.1 ho2.1).2
      cases hf : (Table.filter P t).get k with
      | none => simp [Option.filter, hP]
      | some o2 => exact absurd hf (h1 o2)

end TableLemmas

/-! ## Lemmas on the steps of the commit -/

section CommitLemmas

variable {Raw Obj K : Type} [LinearOrder K] {pk : Obj → K}

theorem lastRecord_concat (k : K) (l : List Obj) (a : Obj) :
    lastRecord pk k (l ++ [a]) = if pk a = k then some a else lastRecord pk k l := by
  unfold lastRecord
  by_cases h : pk a = k <;> simp [List.find?_cons, h]

theorem lastEntry_concat (k : K) (l : List (entry Obj)) (a : entry Obj) :
    lastEntry pk k (l ++ [a]) = if pk a.obj = k then some a else lastEntry pk k l := by
  unfold lastEntry
  by_cases h : pk a.obj = k <;> simp [List.find?_cons, h]

theorem lastRecord_eq_none_iff (k : K) (l : List Obj) :
    lastRecord pk k l = none ↔ k ∉ l.map pk := by
  unfold lastRecord
  rw [List.find?_eq_none]
  simp only [List.mem_reverse, decide_eq_true_eq, List.mem_map, not_exists, not_and]

theorem lastRecord_some (k : K) (l : List Obj) (o : Obj) (h : lastRecord pk k l = some o) :
    o ∈ l ∧ pk o = k := by
  unfold lastRecord at h
  refine ⟨List.mem_reverse.1 (List.mem_of_find?_eq_some h), ?_⟩
  simpa using List.find?_some h

theorem get_foldl_Insert (t : Table pk) (l : List Obj) (k : K) :
    (l.foldl Table.Insert t).get k =
      match lastRecord pk k l with
      | some o => some o
      | none => t.get k := by
  induction l using List.reverseRecOn with
  | nil => rfl
  | append_singleton l a ih =>
    rw [List.foldl_append, lastRecord_concat]
    simp only [List.foldl_cons, List.foldl_nil, Table.get_Insert]
    by_cases h : pk a = k
    · simp [h]
    · simp only [h, if_false]
      exact ih

theorem get_foldl_Delete (t : Table pk) (l : List Obj) (k : K) :
    (l.foldl Table.Delete t).get k = if k ∈ l.map pk then none else t.get k := by
  induction l using List.reverseRecOn with
  | nil => simp
  | append_singleton l a ih =>
    rw [List.foldl_append]
    simp only [List.foldl_cons, List.foldl_nil, Table.get_Delete, List.map_append, List.map_cons,
      List.map_nil, List.mem_append, List.mem_singleton]
    by_cases h : pk a = k
    · simp [h]
    · have h2 : ¬ k = pk a := fun e => h e.symm
      simp only [h, if_false, h2, or_false]
      exact ih

/-- The table after a pending event: the record inserted, or removed for a Delete. -/
theorem entryStep_table (txn : Txn pk) (e : entry Obj) :
    (entryStep txn e).table = if e.deleted then txn.table.Delete e.obj else txn.table.Insert e.obj := by
  unfold entryStep
  cases e.deleted <;> simp

theorem get_foldl_entryStep (txn : Txn pk) (es : List (entry Obj)) (k : K) :
    (es.foldl entryStep txn).table.get k =
      match lastEntry pk k es with
      | some e => if e.deleted then none else some e.obj
      | none => txn.table.get k := by
  induction es using List.reverseRecOn with
  | nil => rfl
  | append_singleton l a ih =>
    rw [List.foldl_append, lastEntry_concat]
    simp only [List.foldl_cons, List.foldl_nil, entryStep_table]
    by_cases h : pk a.obj = k
    · cases hd : a.deleted <;> simp [h, hd, Table.get_Insert, Table.get_Delete]
    · simp only [h, if_false]
      rw [← ih]
      cases hd : a.deleted <;> simp [h, hd, Table.get_Insert, Table.get_Delete]

theorem foldl_deleteStep_table (txn : Txn pk) (l : List Obj) :
    (l.foldl deleteStep txn).table = l.foldl Table.Delete txn.table := by
  induction l generalizing txn with
  | nil => rfl
  | cons a l ih => simp only [List.foldl_cons, ih]; rfl

theorem foldl_deleteStep_fields (txn : Txn pk) (l : List Obj) :
    (l.foldl deleteStep txn).initialized = txn.initialized ∧
    (l.foldl deleteStep txn).numUpserted = txn.numUpserted ∧
    (l.foldl deleteStep txn).numDeleted = txn.numDeleted + l.length ∧
    (l.foldl deleteStep txn).trace = txn.trace ++ l.map Op.Delete := by
  induction l generalizing txn with
  | nil => simp
  | cons a l ih =>
    simp only [List.foldl_cons]
    obtain ⟨h1, h2, h3, h4⟩ := ih (deleteStep txn a)
    refine ⟨h1, h2, ?_, ?_⟩
    · rw [h3]; simp [deleteStep]; omega
    · rw [h4]; simp [deleteStep]

theorem foldl_replaceStep_table (transform : TransformFunc Raw Obj) (txn : Txn pk) (l : List Raw) :
    (l.foldl (replaceStep transform) txn).table =
      (transformItems transform l).foldl Table.Insert txn.table := by
  induction l generalizing txn with
  | nil => rfl
  | cons a l ih =>
    simp only [List.foldl_cons, ih, transformItems, List.filterMap_cons]
    unfold replaceStep
    cases transform (Any.object a) <;> rfl

theorem foldl_replaceStep_fields (transform : TransformFunc Raw Obj) (txn : Txn pk) (l : List Raw) :
    (l.foldl (replaceStep transform) txn).initialized = txn.initialized ∧
    (l.foldl (replaceStep transform) txn).numUpserted =
      txn.numUpserted + (transformItems transform l).length ∧
    (l.foldl (replaceStep transform) txn).numDeleted = txn.numDeleted ∧
    (l.foldl (replaceStep transform) txn).trace =
      txn.trace ++ (transformItems transform l).map Op.Insert := by
  induction l generalizing txn with
  | nil => simp [transformItems]
  | cons a l ih =>
    simp only [List.foldl_cons]
    obtain ⟨h1, h2, h3, h4⟩ := ih (replaceStep transform txn a)
    rw [h1, h2, h3, h4]
    unfold replaceStep transformItems
    rw [List.filterMap_cons]
    cases transform (Any.object a) with
    | none => simp
    | some o => simp; omega

/-- The operation that a pending event performs on the table. -/
theorem foldl_entryStep_fields (txn : Txn pk) (l : List (entry Obj)) :
    (l.foldl entryStep txn).initialized = txn.initialized ∧
    (l.foldl entryStep txn).numUpserted =
      txn.numUpserted + (l.filter (fun e => !e.deleted)).length ∧
    (l.foldl entryStep txn).numDeleted =
      txn.numDeleted + (l.filter (fun e => e.deleted)).length ∧
    (l.foldl entryStep txn).trace =
      txn.trace ++ l.map (fun e => if e.deleted then Op.Delete e.obj else Op.Insert e.obj) := by
  induction l generalizing txn with
  | nil => simp
  | cons a l ih =>
    simp only [List.foldl_cons]
    obtain ⟨h1, h2, h3, h4⟩ := ih (entryStep txn a)
    rw [h1, h2, h3, h4]
    unfold entryStep
    cases hd : a.deleted with
    | false => simp [hd]; omega
    | true => simp [hd]; omega

end CommitLemmas

/-! ## Lemmas on `commitBuffer` -/

section CommitFacts

variable {Raw Obj K : Type} [LinearOrder K] {pk : Obj → K}

/-- The transaction state with which `commitBuffer` enters its loop over the pending events. -/
theorem commitBuffer_table_get (transform : TransformFunc Raw Obj) (queryAll : QueryAllFunc pk)
    (db : DB pk) (buf : buffer Raw Obj) (k : K) :
    (commitBuffer transform queryAll db buf).db.table.get k =
      match lastEntry pk k buf.range with
      | some e => if e.deleted then none else some e.obj
      | none =>
        match buf.replaceItems with
        | some items =>
          (replaceAll transform queryAll
            { table := db.table, initialized := db.initialized, numUpserted := 0, numDeleted := 0,
              trace := [Op.WriteTxn] } items).table.get k
        | none => db.table.get k := by
  unfold commitBuffer
  simp only [get_foldl_entryStep]
  cases buf.replaceItems <;> rfl

theorem replaceAll_table_get (transform : TransformFunc Raw Obj) (P : Obj → Bool)
    (txn : Txn pk) (items : List Raw) (k : K) :
    (replaceAll transform (queryWhere pk P) txn items).table.get k =
      match lastRecord pk k (transformItems transform items) with
      | some o => some o
      | none => (txn.table.get k).filter (fun o => !P o) := by
  unfold replaceAll
  simp only [foldl_replaceStep_table, foldl_deleteStep_table, get_foldl_Insert, get_foldl_Delete]
  cases lastRecord pk k (transformItems transform items) with
  | some o => rfl
  | none =>
    simp only [queryWhere, Table.All]
    cases hg : txn.table.get k with
    | none => simp
    | some o =>
      have ho := (Table.get_eq_some_iff _ k o).1 hg
      by_cases hP : P o = true
      · have : k ∈ (txn.table.rows.filter P).map pk :=
          List.mem_map.2 ⟨o, List.mem_filter.2 ⟨ho.1, hP⟩, ho.2⟩
        simp [this, Option.filter, hP]
      · have : k ∉ (txn.table.rows.filter P).map pk := by
          intro hk
          obtain ⟨o2, ho2, hk2⟩ := List.mem_map.1 hk
          have h2 := (Table.get_eq_some_iff _ k o2).2 ⟨(List.mem_filter.1 ho2).1, hk2⟩
          rw [hg] at h2
          cases h2
          exact hP (List.mem_filter.1 ho2).2
        simp [this, Option.filter, hP]

theorem commitBuffer_initialized (transform : TransformFunc Raw Obj) (queryAll : QueryAllFunc pk)
    (db : DB pk) (buf : buffer Raw Obj) :
    (commitBuffer transform queryAll db buf).db.initialized =
      (db.initialized || buf.replaceItems.isSome) := by
  unfold commitBuffer
  simp only [(foldl_entryStep_fields _ _).1]
  cases buf.replaceItems with
  | none => simp
  | some items => simp [replaceAll]

theorem commitBuffer_trace (transform : TransformFunc Raw Obj) (queryAll : QueryAllFunc pk)
    (db : DB pk) (buf : buffer Raw Obj) :
    (commitBuffer transform queryAll db buf).trace =
      [Op.WriteTxn] ++
      (match buf.replaceItems with
       | some items =>
         [Op.QueryAll] ++ (queryAll db.table).map Op.Delete ++
           (transformItems transform items).map Op.Insert ++ [Op.InitDone]
       | none => []) ++
      buf.range.map (fun e => if e.deleted then Op.Delete e.obj else Op.Insert e.obj) ++
      [Op.NumObjects, Op.Commit,
        Op.HealthOK (commitBuffer transform queryAll db buf).numUpserted
          (commitBuffer transform queryAll db buf).numDeleted
          (commitBuffer transform queryAll db buf).numTotal] := by
  unfold commitBuffer
  simp only [(foldl_entryStep_fields _ _).2.2.2]
  cases buf.replaceItems with
  | none => simp
  | some items =>
    simp [replaceAll, (foldl_replaceStep_fields _ _ _).2.2.2, (foldl_deleteStep_fields _ _).2.2.2]

theorem commitAll_initialized (transform : TransformFunc Raw Obj) (queryAll : QueryAllFunc pk)
    (db : DB pk) (bufs : List (buffer Raw Obj)) :
    (commitAll transform queryAll db bufs).initialized =
      (db.initialized || bufs.any (fun b => b.replaceItems.isSome)) := by
  unfold commitAll
  induction bufs generalizing db with
  | nil => simp
  | cons b bs ih =>
    simp only [List.foldl_cons, ih, commitBuffer_initialized, List.any_cons, Bool.or_assoc]

end CommitFacts

/-! ## Lemmas on the buffering function -/

section FoldLemmas

open CacheStoreEventKind

variable {Raw Obj : Type}

theorem foldFrom_nil (transform : TransformFunc Raw Obj) (accessor : Accessor Raw)
    (b : Option (buffer Raw Obj)) : foldFrom transform accessor b [] = Except.ok b := rfl

theorem foldFrom_cons (transform : TransformFunc Raw Obj) (accessor : Accessor Raw)
    (b : Option (buffer Raw Obj)) (ev : CacheStoreEvent Raw) (l : List (CacheStoreEvent Raw)) :
    foldFrom transform accessor b (ev :: l) =
      match bufferFn transform accessor b ev with
      | Except.ok w => foldFrom transform accessor (some w) l
      | Except.error e => Except.error e := by
  unfold foldFrom
  rw [List.foldlM_cons]
  cases bufferFn transform accessor b ev <;> rfl

theorem foldFrom_append (transform : TransformFunc Raw Obj) (accessor : Accessor Raw)
    (b : Option (buffer Raw Obj)) (l1 l2 : List (CacheStoreEvent Raw)) :
    foldFrom transform accessor b (l1 ++ l2) =
      match foldFrom transform accessor b l1 with
      | Except.ok w => foldFrom transform accessor w l2
      | Except.error e => Except.error e := by
  induction l1 generalizing b with
  | nil => rfl
  | cons ev l ih =>
    rw [List.cons_append, foldFrom_cons, foldFrom_cons]
    cases bufferFn transform accessor b ev with
    | error e => rfl
    | ok w => exact ih (some w)

/-- What the buffering function does with an event that is not a Replace. -/
theorem bufferFn_ok_other (transform : TransformFunc Raw Obj) (accessor : Accessor Raw)
    (b : Option (buffer Raw Obj)) (ev : CacheStoreEvent Raw) (w : buffer Raw Obj)
    (hk : ev.Kind ≠ CacheStoreEventReplace) (hw : bufferFn transform accessor b ev = Except.ok w) :
    w.replaceItems = replaceItemsOf b ∧
    (transform ev.Obj ≠ none → accessor ev.Obj ≠ none) ∧
    w.entries =
      match eventEntry transform accessor ev with
      | some x => (entriesOf b).insert x.1 x.2
      | none => entriesOf b := by
  unfold bufferFn at hw
  rw [if_neg hk] at hw
  unfold eventEntry
  cases ht : transform ev.Obj with
  | none =>
    simp only [ht] at hw
    cases b <;> (cases hw; simp [replaceItemsOf, entriesOf])
  | some obj =>
    simp only [ht] at hw
    cases ha : accessor ev.Obj with
    | none => simp only [ha] at hw; cases hw
    | some m =>
      simp only [ha] at hw
      cases b <;> (cases hw; simp [replaceItemsOf, entriesOf])

theorem bufferFn_replace (transform : TransformFunc Raw Obj) (accessor : Accessor Raw)
    (b : Option (buffer Raw Obj)) (S : Option (List Raw)) :
    bufferFn transform accessor b { Kind := CacheStoreEventReplace, Obj := Any.slice S } =
      Except.ok { replaceItems := S, entries := ∅ } := by
  simp [bufferFn]

/-- A window folded over events none of which is a Replace keeps its baseline, and
holds under every key the pending event of the last accepted event with that key,
or else what it held before. -/
theorem foldFrom_other (transform : TransformFunc Raw Obj) (accessor : Accessor Raw)
    (l : List (CacheStoreEvent Raw)) (hl : ∀ ev ∈ l, ev.Kind ≠ CacheStoreEventReplace) :
    ∀ (b w : Option (buffer Raw Obj)), foldFrom transform accessor b l = Except.ok w →
      replaceItemsOf w = replaceItemsOf b ∧
      (∀ ev ∈ l, transform ev.Obj ≠ none → accessor ev.Obj ≠ none) ∧
      ∀ k, (entriesOf w).lookup k =
        match l.reverse.find? (hitsKey transform accessor k) with
        | some ev => (eventEntry transform accessor ev).map Prod.snd
        | none => (entriesOf b).lookup k := by
  induction l with
  | nil =>
    intro b w hw
    rw [foldFrom_nil] at hw
    cases hw
    exact ⟨rfl, fun ev hev => absurd hev (List.not_mem_nil ev), fun k => rfl⟩
  | cons ev l ih =>
    intro b w hw
    rw [foldFrom_cons] at hw
    cases hb : bufferFn transform accessor b ev with
    | error e => rw [hb] at hw; cases hw
    | ok w1 =>
      rw [hb] at hw
      obtain ⟨h1, h2, h3⟩ := ih (fun e he => hl e (List.mem_cons_of_mem _ he)) (some w1) w hw
      obtain ⟨g1, g2, g3⟩ :=
        bufferFn_ok_other transform accessor b ev w1 (hl ev (List.mem_cons_self _ _)) hb
      refine ⟨h1.trans g1, ?_, ?_⟩
      · intro e he
        rcases List.mem_cons.1 he with he | he
        · exact he ▸ g2
        · exact h2 e he
      · intro k
        rw [h3 k, List.reverse_cons, List.find?_append]
        cases hf : l.reverse.find? (hitsKey transform accessor k) with
        | some e2 => rfl
        | none =>
          simp only [Option.none_or, List.find?_cons, List.find?_nil, entriesOf, g3]
          unfold hitsKey
          cases he : eventEntry transform accessor ev with
          | none => rfl
          | some x =>
            by_cases hx : x.1 = k
            · subst hx
              simp [AList.lookup_insert, he]
            · have hx2 : k ≠ x.1 := fun e => hx e.symm
              simp [hx, he, AList.lookup_insert_ne hx2]

/-- A Replace in the window makes what came before it irrelevant: the window is
the one folded from the Replace on. -/
theorem foldWindow_after_replace (transform : TransformFunc Raw Obj) (accessor : Accessor Raw)
    (front back : List (CacheStoreEvent Raw)) (S : Option (List Raw))
    (w : Option (buffer Raw Obj))
    (hw : foldWindow transform accessor
      (front ++ { Kind := CacheStoreEventReplace, Obj := Any.slice S } :: back) = Except.ok w) :
    foldFrom transform accessor (some { replaceItems := S, entries := ∅ }) back = Except.ok w := by
  unfold foldWindow at hw
  rw [foldFrom_append] at hw
  cases hf : foldFrom transform accessor none front with
  | error e => rw [hf] at hw; cases hw
  | ok b0 =>
    rw [hf] at hw
    simp only [] at hw
    rw [foldFrom_cons, bufferFn_replace] at hw
    exact hw

/-- The buffering function does not panic on an event whose payload fits its kind: a
Replace that carries a slice, or another event whose object, when the Transform accepts
it, has metadata. -/
theorem bufferFn_ok (transform : TransformFunc Raw Obj) (accessor : Accessor Raw)
    (b : Option (buffer Raw Obj)) (ev : CacheStoreEvent Raw)
    (h : WellTyped transform accessor ev) :
    ∃ w, bufferFn transform accessor b ev = Except.ok w := by
  unfold bufferFn
  by_cases hk : ev.Kind = CacheStoreEventReplace
  · obtain ⟨S, hS⟩ := h.1 hk
    rw [if_pos hk, hS]
    exact ⟨_, rfl⟩
  · rw [if_neg hk]
    cases ht : transform ev.Obj with
    | none => exact ⟨_, rfl⟩
    | some obj =>
      cases ha : accessor ev.Obj with
      | none => exact absurd ha (h.2 hk (by rw [ht]; simp))
      | some m => exact ⟨_, rfl⟩

/-- Folding events whose payloads fit their kinds never panics, and yields a window as
soon as there is one event. -/
theorem foldFrom_ok (transform : TransformFunc Raw Obj) (accessor : Accessor Raw)
    (evs : List (CacheStoreEvent Raw)) (h : ∀ ev ∈ evs, WellTyped transform accessor ev) :
    ∀ b : Option (buffer Raw Obj),
      ∃ w, foldFrom transform accessor b evs = Except.ok w ∧ (evs ≠ [] → w ≠ none) := by
  induction evs with
  | nil => intro b; exact ⟨b, rfl, fun hne => absurd rfl hne⟩
  | cons ev l ih =>
    intro b
    obtain ⟨w1, hw1⟩ := bufferFn_ok transform accessor b ev (h ev (List.mem_cons_self _ _))
    obtain ⟨w, hw, hne⟩ := ih (fun e he => h e (List.mem_cons_of_mem _ he)) (some w1)
    refine ⟨w, ?_, fun _ => ?_⟩
    · rw [foldFrom_cons, hw1]
      exact hw
    · cases l with
      | nil =>
        rw [foldFrom_nil] at hw
        cases hw
        simp
      | cons e2 l2 => exact hne (by simp)

theorem hitsKey_eq_true_iff (transform : TransformFunc Raw Obj) (accessor : Accessor Raw)
    (k : String) (ev : CacheStoreEvent Raw) :
    hitsKey transform accessor k ev = true ↔
      ∃ obj m, transform ev.Obj = some obj ∧ accessor ev.Obj = some m ∧
        coalescingKey m.Namespace m.Name = k := by
  unfold hitsKey eventEntry
  cases ht : transform ev.Obj with
  | none => simp
  | some obj =>
    cases ha : accessor ev.Obj with
    | none => simp
    | some m => simp

/-- The last accepted event with a given key decides what the window holds under
that key. -/
theorem foldFrom_last (transform : TransformFunc Raw Obj) (accessor : Accessor Raw)
    (b w : Option (buffer Raw Obj)) (ev : CacheStoreEvent Raw) (back : List (CacheStoreEvent Raw))
    (obj : Obj) (m : ObjectMeta)
    (hw : foldFrom transform accessor b (ev :: back) = Except.ok w)
    (hk : ev.Kind ≠ CacheStoreEventReplace)
    (ht : transform ev.Obj = some obj) (ha : accessor ev.Obj = some m)
    (hback : ∀ e2 ∈ back, e2.Kind ≠ CacheStoreEventReplace ∧
      ∀ o2 m2, transform e2.Obj = some o2 → accessor e2.Obj = some m2 →
        coalescingKey m2.Namespace m2.Name ≠ coalescingKey m.Namespace m.Name) :
    (entriesOf w).lookup (coalescingKey m.Namespace m.Name) =
      some { deleted := decide (ev.Kind = CacheStoreEventDelete), name := m.Name,
             namespace_ := m.Namespace, obj := obj } := by
  have hl : ∀ e ∈ ev :: back, e.Kind ≠ CacheStoreEventReplace := by
    intro e he
    rcases List.mem_cons.1 he with he | he
    · exact he ▸ hk
    · exact (hback e he).1
  obtain ⟨_, _, h3⟩ := foldFrom_other transform accessor (ev :: back) hl b w hw
  rw [h3, List.reverse_cons, List.find?_append]
  have hnone : back.reverse.find? (hitsKey transform accessor (coalescingKey m.Namespace m.Name)) =
      none := by
    apply List.find?_eq_none.2
    intro e he hhit
    obtain ⟨o2, m2, h1, h2, h3⟩ := (hitsKey_eq_true_iff transform accessor _ e).1 hhit
    exact (hback e (List.mem_reverse.1 he)).2 o2 m2 h1 h2 h3
  have hhit : hitsKey transform accessor (coalescingKey m.Namespace m.Name) ev = true :=
    (hitsKey_eq_true_iff transform accessor _ ev).2 ⟨obj, m, ht, ha, rfl⟩
  simp [hnone, List.find?_cons, hhit, eventEntry, ht, ha]

end FoldLemmas

/-! ## Lemmas on the order of the pending events -/

section RangeLemmas

open CacheStoreEventKind

variable {Raw Obj K : Type} [LinearOrder K] {pk : Obj → K}

theorem lastEntry_unique (es : List (entry Obj)) (e : entry Obj) (he : e ∈ es)
    (huniq : ∀ e2 ∈ es, pk e2.obj = pk e.obj → e2 = e) :
    lastEntry pk (pk e.obj) es = some e := by
  unfold lastEntry
  cases hf : es.reverse.find? (fun e2 => decide (pk e2.obj = pk e.obj)) with
  | none =>
    have := List.find?_eq_none.1 hf e (List.mem_reverse.2 he)
    simp at this
  | some x =>
    have hx : x ∈ es := List.mem_reverse.1 (List.mem_of_find?_eq_some hf)
    have hp : pk x.obj = pk e.obj := by simpa using List.find?_some hf
    rw [huniq x hx hp]

theorem mem_range_iff (w : buffer Raw Obj) (e : entry Obj) :
    e ∈ w.range ↔ ∃ k, w.entries.lookup k = some e := by
  unfold buffer.range
  rw [List.mem_map]
  constructor
  · rintro ⟨⟨k, e2⟩, hm, rfl⟩
    exact ⟨k, AList.mem_lookup_iff.2 hm⟩
  · rintro ⟨k, hk⟩
    exact ⟨⟨k, e⟩, AList.mem_lookup_iff.1 hk, rfl⟩

theorem rangeOrder_mem (w w2 : buffer Raw Obj) (h : rangeOrder w w2) (e : entry Obj) :
    e ∈ w2.range ↔ e ∈ w.range := by
  unfold buffer.range
  exact (h.2.map Sigma.snd).mem_iff

/-- In every order of the window, the pending event whose record shares its primary key
with no other pending event is the last pending event for that primary key. -/
theorem lastEntry_of_lookup (w w2 : buffer Raw Obj) (h : rangeOrder w w2) (k : String)
    (e : entry Obj) (he : w.entries.lookup k = some e)
    (huniq : ∀ k2 e2, w.entries.lookup k2 = some e2 → pk e2.obj = pk e.obj → k2 = k) :
    lastEntry pk (pk e.obj) w2.range = some e := by
  apply lastEntry_unique
  · exact (rangeOrder_mem w w2 h e).2 ((mem_range_iff w e).2 ⟨k, he⟩)
  · intro e2 he2 hp
    obtain ⟨k2, hk2⟩ := (mem_range_iff w e2).1 ((rangeOrder_mem w w2 h e2).1 he2)
    have hk : k2 = k := huniq k2 e2 hk2 hp
    rw [hk, he] at hk2
    exact (Option.some.inj hk2).symm

theorem rangeOrder_refl (w : buffer Raw Obj) : rangeOrder w w :=
  ⟨rfl, List.Perm.refl _⟩

end RangeLemmas

/-! ## Lemmas on a window that holds only a Replace -/

section ReplaceLemmas

open CacheStoreEventKind

variable {Raw Obj K : Type} [LinearOrder K] {pk : Obj → K}

theorem queryAllDefault_eq (pk : Obj → K) : queryAllDefault pk = queryWhere pk (fun _ => true) := by
  funext t
  simp [queryAllDefault, queryWhere]

theorem lastEntry_nil (k : K) : lastEntry pk k ([] : List (entry Obj)) = none := rfl

/-- The row under each primary key after the commit of a window that holds only a
Replace: the last record of the snapshot with that key, else the old row if it is
outside the scope. -/
theorem commit_replaceOnly_get (transform : TransformFunc Raw Obj) (P : Obj → Bool) (db : DB pk)
    (S : List Raw) (k : K) :
    (commitBuffer transform (queryWhere pk P) db (replaceOnly Obj S)).db.table.get k =
      match lastRecord pk k (transformItems transform S) with
      | some o => some o
      | none => (db.table.get k).filter (fun o => !P o) := by
  rw [commitBuffer_table_get]
  have hr : (replaceOnly Obj S : buffer Raw Obj).range = [] := rfl
  rw [hr, lastEntry_nil]
  simp only [replaceOnly]
  exact replaceAll_table_get transform P _ S k

end ReplaceLemmas

/-! ## Lemmas on events applied one by one -/

section OverlayLemmas

open CacheStoreEventKind

variable {Raw Obj K : Type} [LinearOrder K] {pk : Obj → K}

theorem hitsPk_eq_true_iff (transform : TransformFunc Raw Obj) (p : K) (ev : CacheStoreEvent Raw) :
    hitsPk pk transform p ev = true ↔ ∃ obj, transform ev.Obj = some obj ∧ pk obj = p := by
  unfold hitsPk
  cases transform ev.Obj <;> simp

/-- The row under a primary key after events applied one by one: what the last accepted
event with a record of that key made of it, else the row from before. -/
theorem get_foldl_applyEvent (transform : TransformFunc Raw Obj) (t : Table pk)
    (evs : List (CacheStoreEvent Raw)) (p : K) :
    (evs.foldl (applyEvent transform) t).get p =
      match evs.reverse.find? (hitsPk pk transform p) with
      | some ev =>
        if ev.Kind = CacheStoreEventDelete then none else transform ev.Obj
      | none => t.get p := by
  induction evs using List.reverseRecOn with
  | nil => rfl
  | append_singleton l ev ih =>
    rw [List.foldl_append, List.reverse_append]
    simp only [List.foldl_cons, List.foldl_nil, List.reverse_cons, List.reverse_nil,
      List.nil_append, List.singleton_append, List.find?_cons]
    unfold applyEvent hitsPk
    cases ht : transform ev.Obj with
    | none => simpa using ih
    | some obj =>
      by_cases hp : pk obj = p
      · by_cases hd : ev.Kind = CacheStoreEventDelete <;>
          simp [hp, hd, ht, Table.get_Insert, Table.get_Delete]
      · by_cases hd : ev.Kind = CacheStoreEventDelete
        · simp only [hd, if_true, Table.get_Delete, hp, if_false, decide_False]
          exact ih
        · simp only [hd, if_false, Table.get_Insert, hp, decide_False]
          exact ih

/-- Every pending event of a window folded from an empty mapping stems from an accepted
event. -/
theorem lookup_origin (transform : TransformFunc Raw Obj) (accessor : Accessor Raw)
    (back : List (CacheStoreEvent Raw)) (w : buffer Raw Obj) (k : String) (e : entry Obj)
    (h3 : w.entries.lookup k =
      match back.reverse.find? (hitsKey transform accessor k) with
      | some ev => (eventEntry transform accessor ev).map Prod.snd
      | none => none)
    (hke : w.entries.lookup k = some e) :
    ∃ ev ∈ back, ∃ m, transform ev.Obj = some e.obj ∧ accessor ev.Obj = some m ∧
      coalescingKey m.Namespace m.Name = k := by
  rw [hke] at h3
  cases hfind : back.reverse.find? (hitsKey transform accessor k) with
  | none => rw [hfind] at h3; cases h3
  | some ev =>
    rw [hfind] at h3
    have hmem : ev ∈ back := List.mem_reverse.1 (List.mem_of_find?_eq_some hfind)
    obtain ⟨obj, m, ht, ha, hk⟩ :=
      (hitsKey_eq_true_iff transform accessor k ev).1 (List.find?_some hfind)
    refine ⟨ev, hmem, m, ?_, ha, hk⟩
    simp only [eventEntry, ht, ha, Option.map_some', Option.some.injEq] at h3
    rw [h3, ht]

/-- The pending events of a window applied in any order leave under each primary key what
the events applied one by one leave there, when primary keys and coalescing keys tell the
same objects apart. -/
theorem pending_agree_with_events (transform : TransformFunc Raw Obj) (accessor : Accessor Raw)
    (back : List (CacheStoreEvent Raw)) (w w2 : buffer Raw Obj)
    (h2 : ∀ ev ∈ back, transform ev.Obj ≠ none → accessor ev.Obj ≠ none)
    (h3 : ∀ k, w.entries.lookup k =
      match back.reverse.find? (hitsKey transform accessor k) with
      | some ev => (eventEntry transform accessor ev).map Prod.snd
      | none => none)
    (hkeys : ∀ e1 ∈ back, ∀ e2 ∈ back, ∀ o1 o2 m1 m2,
      transform e1.Obj = some o1 → transform e2.Obj = some o2 →
      accessor e1.Obj = some m1 → accessor e2.Obj = some m2 →
      (pk o1 = pk o2 ↔
        coalescingKey m1.Namespace m1.Name = coalescingKey m2.Namespace m2.Name))
    (horder : rangeOrder w w2) (p : K) (base : Option Obj) :
    (match lastEntry pk p w2.range with
      | some e => if e.deleted then none else some e.obj
      | none => base) =
    match back.reverse.find? (hitsPk pk transform p) with
      | some ev => if ev.Kind = CacheStoreEventDelete then none else transform ev.Obj
      | none => base := by
  cases hfind : back.reverse.find? (hitsPk pk transform p) with
  | none =>
    have hnone : lastEntry pk p w2.range = none := by
      unfold lastEntry
      apply List.find?_eq_none.2
      intro e he hp
      have he2 : e ∈ w.range := (rangeOrder_mem w w2 horder e).1 (List.mem_reverse.1 he)
      obtain ⟨k, hk⟩ := (mem_range_iff w e).1 he2
      obtain ⟨ev, hev, m, ht, _, _⟩ := lookup_origin transform accessor back w k e (h3 k) hk
      have := List.find?_eq_none.1 hfind ev (List.mem_reverse.2 hev)
      exact this ((hitsPk_eq_true_iff transform p ev).2 ⟨e.obj, ht, by simpa using hp⟩)
    rw [hnone]
  | some ev =>
    have hev : ev ∈ back := List.mem_reverse.1 (List.mem_of_find?_eq_some hfind)
    obtain ⟨obj, ht, hp⟩ := (hitsPk_eq_true_iff transform p ev).1 (List.find?_some hfind)
    obtain ⟨_, as, bs, hsplit, has⟩ := List.find?_eq_some.1 hfind
    cases ha : accessor ev.Obj with
    | none => exact absurd ha (h2 ev hev (by rw [ht]; simp))
    | some m =>
      have hlook : w.entries.lookup (coalescingKey m.Namespace m.Name) =
          some { deleted := decide (ev.Kind = CacheStoreEventDelete), name := m.Name,
                 namespace_ := m.Namespace, obj := obj } := by
        rw [h3, hsplit, List.find?_append]
        have hnone : as.find? (hitsKey transform accessor (coalescingKey m.Namespace m.Name)) =
            none := by
          apply List.find?_eq_none.2
          intro e2 he2 hhit
          obtain ⟨o2, m2, g1, g2, g3⟩ := (hitsKey_eq_true_iff transform accessor _ e2).1 hhit
          have hmem2 : e2 ∈ back := by
            apply List.mem_reverse.1
            rw [hsplit]
            exact List.mem_append_left _ he2
          have hpk : pk o2 = pk obj := (hkeys e2 hmem2 ev hev o2 obj m2 m g1 ht g2 ha).2 g3
          have hno := has e2 he2
          rw [(hitsPk_eq_true_iff transform p e2).2 ⟨o2, g1, hpk.trans hp⟩] at hno
          cases hno
        have hhit : hitsKey transform accessor (coalescingKey m.Namespace m.Name) ev = true :=
          (hitsKey_eq_true_iff transform accessor _ ev).2 ⟨obj, m, ht, ha, rfl⟩
        simp [hnone, List.find?_cons, hhit, eventEntry, ht, ha]
      have huniq : ∀ k2 e2, w.entries.lookup k2 = some e2 → pk e2.obj = pk obj →
          k2 = coalescingKey m.Namespace m.Name := by
        intro k2 e2 hk2 hpk
        obtain ⟨ev2, hev2, m2, g1, g2, g3⟩ :=
          lookup_origin transform accessor back w k2 e2 (h3 k2) hk2
        rw [← g3]
        exact (hkeys ev2 hev2 ev hev e2.obj obj m2 m g1 ht g2 ha).1 hpk
      have hle : lastEntry pk (pk obj) w2.range = some _ :=
        lastEntry_of_lookup w w2 horder _ _ hlook huniq
      rw [← hp, hle]
      by_cases hd : ev.Kind = CacheStoreEventDelete <;> simp [hd, ht]

end OverlayLemmas

/-! ## Lemmas on counters, orders and keys -/

section MoreLemmas

variable {Raw Obj K : Type} [LinearOrder K] {pk : Obj → K}

theorem commitBuffer_counts (transform : TransformFunc Raw Obj) (queryAll : QueryAllFunc pk)
    (db : DB pk) (buf : buffer Raw Obj) :
    (commitBuffer transform queryAll db buf).numUpserted =
      (match buf.replaceItems with
        | some items => (transformItems transform items).length
        | none => 0) + (buf.range.filter (fun e => !e.deleted)).length ∧
    (commitBuffer transform queryAll db buf).numDeleted =
      (match buf.replaceItems with
        | some _ => (queryAll db.table).length
        | none => 0) + (buf.range.filter (fun e => e.deleted)).length := by
  unfold commitBuffer
  simp only [(foldl_entryStep_fields _ _).2.1, (foldl_entryStep_fields _ _).2.2.1]
  cases buf.replaceItems with
  | none => simp
  | some items =>
    simp [replaceAll, (foldl_replaceStep_fields _ _ _).2.1, (foldl_replaceStep_fields _ _ _).2.2.1,
      (foldl_deleteStep_fields _ _).2.1, (foldl_deleteStep_fields _ _).2.2.1]

theorem lastEntry_eq_none_iff (k : K) (es : List (entry Obj)) :
    lastEntry pk k es = none ↔ ∀ e ∈ es, pk e.obj ≠ k := by
  unfold lastEntry
  rw [List.find?_eq_none]
  simp only [List.mem_reverse, decide_eq_true_eq]

/-- Two orders of pending events whose records have distinct primary keys have the same
last pending event for every primary key. -/
theorem lastEntry_perm (es es2 : List (entry Obj)) (hp : es2.Perm es)
    (hinj : ∀ e1 ∈ es, ∀ e2 ∈ es, pk e1.obj = pk e2.obj → e1 = e2) (k : K) :
    lastEntry pk k es2 = lastEntry pk k es := by
  by_cases h : ∃ e ∈ es, pk e.obj = k
  · obtain ⟨e, he, hk⟩ := h
    subst hk
    rw [lastEntry_unique es e he (fun e2 h2 hpk => hinj e2 h2 e he hpk),
      lastEntry_unique es2 e (hp.mem_iff.2 he)
        (fun e2 h2 hpk => hinj e2 (hp.mem_iff.1 h2) e he hpk)]
  · have h1 : ∀ e ∈ es, pk e.obj ≠ k := fun e he hk => h ⟨e, he, hk⟩
    rw [(lastEntry_eq_none_iff k es).2 h1,
      (lastEntry_eq_none_iff k es2).2 (fun e he => h1 e (hp.mem_iff.1 he))]

theorem DB.ext_fields (d1 d2 : DB pk) (h1 : d1.table = d2.table)
    (h2 : d1.initialized = d2.initialized) : d1 = d2 := by
  cases d1; cases d2
  simp only [] at h1 h2
  rw [h1, h2]

theorem append_sep_cancel {α : Type} (c : α) :
    ∀ (u v s t : List α), c ∉ u → c ∉ v → u ++ c :: s = v ++ c :: t → u = v ∧ s = t := by
  intro u
  induction u with
  | nil =>
    intro v s t _ hv h
    cases v with
    | nil => exact ⟨rfl, (List.cons.inj h).2⟩
    | cons d v2 =>
      have hd : c = d := (List.cons.inj h).1
      exact absurd (hd ▸ List.mem_cons_self _ _) hv
  | cons d u2 ih =>
    intro v s t hu hv h
    cases v with
    | nil =>
      have hd : d = c := (List.cons.inj h).1
      exact absurd (hd ▸ List.mem_cons_self _ _) hu
    | cons d2 v2 =>
      have h1 := List.cons.inj h
      obtain ⟨g1, g2⟩ := ih v2 s t (fun hm => hu (List.mem_cons_of_mem _ hm))
        (fun hm => hv (List.mem_cons_of_mem _ hm)) h1.2
      exact ⟨by rw [h1.1, g1], g2⟩

theorem sep_append_cancel {α : Type} (c : α) (a b x y : List α) (hx : c ∉ x) (hy : c ∉ y)
    (h : a ++ c :: x = b ++ c :: y) : a = b ∧ x = y := by
  have hr : x.reverse ++ c :: a.reverse = y.reverse ++ c :: b.reverse := by
    have := congrArg List.reverse h
    simpa using this
  obtain ⟨g1, g2⟩ := append_sep_cancel c x.reverse y.reverse a.reverse b.reverse
    (fun hm => hx (List.mem_reverse.1 hm)) (fun hm => hy (List.mem_reverse.1 hm)) hr
  exact ⟨List.reverse_injective g2, List.reverse_injective g1⟩

theorem coalescingKey_data (ns n : String) :
    (coalescingKey ns n).data = if ns = "" then n.data else ns.data ++ '/' :: n.data := by
  unfold coalescingKey
  by_cases h : ns = ""
  · simp [h]
  · simp only [ne_eq, h, not_false_eq_true, if_true, if_false, String.data_append]
    simp

theorem coalescingKey_inj (ns1 n1 ns2 n2 : String) (h1 : '/' ∉ n1.data) (h2 : '/' ∉ n2.data)
    (h : coalescingKey ns1 n1 = coalescingKey ns2 n2) : ns1 = ns2 ∧ n1 = n2 := by
  have hd := congrArg String.data h
  rw [coalescingKey_data, coalescingKey_data] at hd
  by_cases e1 : ns1 = "" <;> by_cases e2 : ns2 = ""
  · rw [if_pos e1, if_pos e2] at hd
    exact ⟨e1.trans e2.symm, String.ext hd⟩
  · rw [if_pos e1, if_neg e2] at hd
    exact absurd (hd ▸ List.mem_append_right _ (List.mem_cons_self _ _)) h1
  · rw [if_neg e1, if_pos e2] at hd
    exact absurd (hd ▸ List.mem_append_right _ (List.mem_cons_self _ _)) h2
  · rw [if_neg e1, if_neg e2] at hd
    obtain ⟨g1, g2⟩ := sep_append_cancel '/' _ _ _ _ h1 h2 hd
    exact ⟨String.ext g1, String.ext g2⟩

theorem foldl_entryStep_table (txn : Txn pk) (l : List (entry Obj)) :
    (l.foldl entryStep txn).table =
      l.foldl (fun t e => if e.deleted then t.Delete e.obj else t.Insert e.obj) txn.table := by
  induction l generalizing txn with
  | nil => rfl
  | cons a l ih => simp only [List.foldl_cons, ih, entryStep_table]

/-- The table that a commit of a window with a baseline leaves: the rows of the scope
query deleted, then the accepted items inserted in order, then the pending events
applied in order. -/
theorem commitBuffer_table_of_baseline (transform : TransformFunc Raw Obj)
    (queryAll : QueryAllFunc pk) (db : DB pk) (buf : buffer Raw Obj) (items : List Raw)
    (hb : buf.replaceItems = some items) :
    (commitBuffer transform queryAll db buf).db.table =
      buf.range.foldl (fun t e => if e.deleted then t.Delete e.obj else t.Insert e.obj)
        ((transformItems transform items).foldl Table.Insert
          ((queryAll db.table).foldl Table.Delete db.table)) := by
  unfold commitBuffer
  simp only [hb, foldl_entryStep_table, replaceAll, foldl_replaceStep_table,
    foldl_deleteStep_table]

theorem lastRecord_split (k : K) (front back : List Obj) (o : Obj) (ho : pk o = k)
    (hback : ∀ o2 ∈ back, pk o2 ≠ k) :
    lastRecord pk k (front ++ o :: back) = some o := by
  unfold lastRecord
  rw [List.reverse_append, List.reverse_cons, List.append_assoc, List.find?_append]
  have hnone : back.reverse.find? (fun o2 => decide (pk o2 = k)) = none := by
    apply List.find?_eq_none.2
    intro o2 h2
    simpa using hback o2 (List.mem_reverse.1 h2)
  rw [hnone]
  simp [List.find?_cons, ho]

theorem transformItems_split (transform : TransformFunc Raw Obj) (front back : List Raw)
    (item : Raw) (o : Obj) (ht : transform (Any.object item) = some o) :
    transformItems transform (front ++ item :: back) =
      transformItems transform front ++ o :: transformItems transform back := by
  unfold transformItems
  rw [List.filterMap_append, List.filterMap_cons, ht]

end MoreLemmas

/-! ## The claims -/

section Claims

open CacheStoreEventKind

variable {Raw Obj K : Type} [LinearOrder K] {pk : Obj → K}

/-- C1 as amended: for events folded into one window and committed, in whatever order the
pending events are applied, only the last Replace and the events after it take effect.
When the records of the events after that Replace have the same primary key exactly if
they have the same coalescing key, the rows of the table that match the scope predicate
after the commit are the rows matching it among the transformed records of that Replace
overlaid with the events that followed it; they are all of the overlay when all of it
matches the scope predicate; and the window is the one of the Replace and what followed
it alone. -/
theorem replace_supersedes (transform : TransformFunc Raw Obj) (accessor : Accessor Raw)
    (P : Obj → Bool) (db : DB pk) (front back : List (CacheStoreEvent Raw)) (S : List Raw)
    (w w2 : buffer Raw Obj)
    (hw : foldWindow transform accessor
      (front ++ { Kind := CacheStoreEventReplace, Obj := Any.slice (some S) } :: back) =
        Except.ok (some w))
    (hback : ∀ e ∈ back, e.Kind ≠ CacheStoreEventReplace)
    (hkeys : ∀ e1 ∈ back, ∀ e2 ∈ back, ∀ o1 o2 m1 m2,
      transform e1.Obj = some o1 → transform e2.Obj = some o2 →
      accessor e1.Obj = some m1 → accessor e2.Obj = some m2 →
      (pk o1 = pk o2 ↔
        coalescingKey m1.Namespace m1.Name = coalescingKey m2.Namespace m2.Name))
    (horder : rangeOrder w w2) :
    Table.filter P (commitBuffer transform (queryWhere pk P) db w2).db.table =
      Table.filter P (overlay pk transform S back) ∧
    ((∀ o ∈ (overlay pk transform S back).rows, P o = true) →
      Table.filter P (commitBuffer transform (queryWhere pk P) db w2).db.table =
        overlay pk transform S back) ∧
    foldWindow transform accessor
      ({ Kind := CacheStoreEventReplace, Obj := Any.slice (some S) } :: back) =
        Except.ok (some w) := by
  have h := foldWindow_after_replace transform accessor front back (some S) (some w) hw
  obtain ⟨h1, h2, h3⟩ := foldFrom_other transform accessor back hback _ _ h
  have h3b : ∀ k, w.entries.lookup k =
      match back.reverse.find? (hitsKey transform accessor k) with
      | some ev => (eventEntry transform accessor ev).map Prod.snd
      | none => none := by
    intro k
    have := h3 k
    simpa [entriesOf] using this
  have hmain : Table.filter P (commitBuffer transform (queryWhere pk P) db w2).db.table =
      Table.filter P (overlay pk transform S back) := by
    apply Table.ext_get
    intro p
    have hitems : w2.replaceItems = some S := horder.1.trans h1
    rw [Table.get_filter, Table.get_filter, commitBuffer_table_get, hitems]
    simp only []
    rw [pending_agree_with_events transform accessor back w w2 h2 h3b hkeys horder p,
      replaceAll_table_get]
    unfold overlay
    rw [get_foldl_applyEvent, get_foldl_Insert]
    cases back.reverse.find? (hitsPk pk transform p) with
    | some ev => rfl
    | none =>
      simp only [Table.get_empty]
      cases lastRecord pk p (transformItems transform S) with
      | some o => rfl
      | none =>
        simp only []
        cases db.table.get p with
        | none => rfl
        | some o => cases hP : P o <;> simp [Option.filter, hP]
  refine ⟨hmain, ?_, ?_⟩
  · intro hall
    rw [hmain]
    apply Table.ext_rows
    exact List.filter_eq_self.2 hall
  · unfold foldWindow
    rw [foldFrom_cons, bufferFn_replace]
    exact h

/-- Witness of C1 as amended: the events Replace({A:1}), Update(A,2), Replace({B:5}),
Add(C,9) in one window, committed with the default scope to a table that held another
row, leave the table equal to {B:5, C:9}. -/
theorem replace_supersedes_witness :
    foldWindow Rec.transform Rec.accessor Rec.twoReplaces =
      Except.ok (some Rec.twoReplacesWindow) ∧
    (overlay Rec.byName Rec.transform [Rec.b5]
      [{ Kind := CacheStoreEventAdd, Obj := Any.object Rec.c9 }]).rows = [Rec.b5, Rec.c9] ∧
    Table.filter (fun _ => true)
      (commitBuffer Rec.transform (queryWhere Rec.byName (fun _ => true)) Rec.dbWithK
        Rec.twoReplacesWindow).db.table =
      overlay Rec.byName Rec.transform [Rec.b5]
        [{ Kind := CacheStoreEventAdd, Obj := Any.object Rec.c9 }] :=
  ⟨rfl, by decide,
   (replace_supersedes Rec.transform Rec.accessor (fun _ => true) Rec.dbWithK
      [{ Kind := CacheStoreEventReplace, Obj := Any.slice (some [Rec.a1]) },
       { Kind := CacheStoreEventUpdate, Obj := Any.object Rec.a2 }]
      [{ Kind := CacheStoreEventAdd, Obj := Any.object Rec.c9 }] [Rec.b5]
      Rec.twoReplacesWindow Rec.twoReplacesWindow rfl (by decide)
      (by
        intro e1 h1 e2 h2 o1 o2 m1 m2 t1 t2 a1 a2
        rw [List.mem_singleton.1 h1] at t1 a1
        rw [List.mem_singleton.1 h2] at t2 a2
        have g1 : o1 = Rec.c9 := (Option.some.inj t1).symm
        have g2 : o2 = Rec.c9 := (Option.some.inj t2).symm
        have g3 : m1 = ⟨"C", ""⟩ := (Option.some.inj a1).symm
        have g4 : m2 = ⟨"C", ""⟩ := (Option.some.inj a2).symm
        rw [g1, g2, g3, g4]
        exact ⟨fun _ => rfl, fun _ => rfl⟩)
      (rangeOrder_refl _)).1⟩

/-- Counterexample to C1: after a Replace with no items, `ns1/x` is added and `ns2/x` is
deleted, and the table is keyed by name with the default scope.  The Replace overlaid with
the two events is the empty table, and so is the table when the pending Add is applied
first; when the pending Delete is applied first the table holds the row `x`.  And with the
scope of namespace `ns1`, a Replace of the record `y` of namespace `ns2` leaves no row in
the scope, while the transformed records of the Replace are that record. -/
theorem replace_supersedes_counterexample :
    foldWindow Rec.transform Rec.accessor Rec.replaceThenAddDelete =
      Except.ok (some (Rec.deleteFirst (some []))) ∧
    rangeOrder (Rec.deleteFirst (some [])) (Rec.addFirst (some [])) ∧
    (overlay Rec.byName Rec.transform [] Rec.addThenDeleteOther).rows = [] ∧
    (commitBuffer Rec.transform (queryAllDefault Rec.byName) Rec.emptyDB
      (Rec.addFirst (some []))).db.table.rows = [] ∧
    (commitBuffer Rec.transform (queryAllDefault Rec.byName) Rec.emptyDB
      (Rec.deleteFirst (some []))).db.table.rows = [Rec.x1] ∧
    (Table.filter Rec.inNs1
      (commitBuffer Rec.transform (queryWhere Rec.byName Rec.inNs1) Rec.emptyDB
        (replaceOnly Rec [Rec.y2])).db.table).rows = [] ∧
    (overlay Rec.byName Rec.transform [Rec.y2] []).rows = [Rec.y2] := by
  refine ⟨rfl, ⟨rfl, ?_⟩, by decide, by decide, by decide, by decide, by decide⟩
  exact List.Perm.swap _ _ _

/-- C2: whatever the window was (absent, empty, or holding a baseline and pending
entries), the buffering function answers a Replace event with payload `S` by a
window whose baseline is `S` and whose keyed mapping is empty. -/
theorem bufferFn_replace_resets (transform : TransformFunc Raw Obj) (accessor : Accessor Raw)
    (buf : Option (buffer Raw Obj)) (S : Option (List Raw)) :
    bufferFn transform accessor buf { Kind := CacheStoreEventReplace, Obj := Any.slice S } =
      Except.ok { replaceItems := S, entries := ∅ } := by
  simp [bufferFn]

/-- C3 as amended: for Add, Update and Delete events folded into one window and committed,
in whatever order the pending events are applied: if the last event that the Transform
accepts for a coalescing key has a record whose primary key no pending event of another
key shares, the table after the commit holds exactly that record under its primary key
when the event is an Add or Update, and no row under it when the event is a Delete. -/
theorem last_event_per_key_decides (transform : TransformFunc Raw Obj) (accessor : Accessor Raw)
    (queryAll : QueryAllFunc pk) (db : DB pk) (evs : List (CacheStoreEvent Raw))
    (w w2 : buffer Raw Obj) (front : List (CacheStoreEvent Raw)) (ev : CacheStoreEvent Raw)
    (back : List (CacheStoreEvent Raw)) (obj : Obj) (m : ObjectMeta)
    (hl : ∀ e ∈ evs, e.Kind ≠ CacheStoreEventReplace)
    (hw : foldWindow transform accessor evs = Except.ok (some w))
    (horder : rangeOrder w w2)
    (hsplit : evs = front ++ ev :: back)
    (ht : transform ev.Obj = some obj) (ha : accessor ev.Obj = some m)
    (hlast : ∀ e2 ∈ back, ∀ o2 m2, transform e2.Obj = some o2 → accessor e2.Obj = some m2 →
      coalescingKey m2.Namespace m2.Name ≠ coalescingKey m.Namespace m.Name)
    (huniq : ∀ k2 e2, w.entries.lookup k2 = some e2 → pk e2.obj = pk obj →
      k2 = coalescingKey m.Namespace m.Name) :
    (commitBuffer transform queryAll db w2).db.table.get (pk obj) =
      if ev.Kind = CacheStoreEventDelete then none else some obj := by
  subst hsplit
  have hk : ev.Kind ≠ CacheStoreEventReplace := hl ev (by simp)
  have hback : ∀ e2 ∈ back, e2.Kind ≠ CacheStoreEventReplace ∧
      ∀ o2 m2, transform e2.Obj = some o2 → accessor e2.Obj = some m2 →
        coalescingKey m2.Namespace m2.Name ≠ coalescingKey m.Namespace m.Name :=
    fun e2 he2 => ⟨hl e2 (by simp [he2]), hlast e2 he2⟩
  have hlook : w.entries.lookup (coalescingKey m.Namespace m.Name) =
      some { deleted := decide (ev.Kind = CacheStoreEventDelete), name := m.Name,
             namespace_ := m.Namespace, obj := obj } := by
    unfold foldWindow at hw
    rw [foldFrom_append] at hw
    cases hf : foldFrom transform accessor none front with
    | error e => rw [hf] at hw; cases hw
    | ok b0 =>
      rw [hf] at hw
      exact foldFrom_last transform accessor b0 (some w) ev back obj m hw hk ht ha hback
  have hle : lastEntry pk (pk obj) w2.range = some _ :=
    lastEntry_of_lookup w w2 horder _ _ hlook huniq
  rw [commitBuffer_table_get, hle]
  by_cases hd : ev.Kind = CacheStoreEventDelete <;> simp [hd]

/-- Witness of C3 as amended: an Add, an Update and a Delete of `ns/k` in one window leave
the row of `ns/k`, present before the commit, absent. -/
theorem last_event_per_key_decides_witness :
    foldWindow Rec.transform Rec.accessor Rec.addUpdateDelete =
      Except.ok (some Rec.deletePending) ∧
    Rec.dbWithK.table.get (Rec.byName ⟨"ns", "k", 2⟩) = some ⟨"ns", "k", 0⟩ ∧
    (commitBuffer Rec.transform (queryAllDefault Rec.byName) Rec.dbWithK
      Rec.deletePending).db.table.get (Rec.byName ⟨"ns", "k", 2⟩) =
      if CacheStoreEventDelete = CacheStoreEventDelete then none else some ⟨"ns", "k", 2⟩ :=
  ⟨rfl, by decide,
   last_event_per_key_decides Rec.transform Rec.accessor (queryAllDefault Rec.byName)
    Rec.dbWithK Rec.addUpdateDelete Rec.deletePending Rec.deletePending
    [{ Kind := CacheStoreEventAdd, Obj := Any.object ⟨"ns", "k", 1⟩ },
     { Kind := CacheStoreEventUpdate, Obj := Any.object ⟨"ns", "k", 2⟩ }]
    { Kind := CacheStoreEventDelete, Obj := Any.object ⟨"ns", "k", 2⟩ } []
    ⟨"ns", "k", 2⟩ ⟨"k", "ns"⟩
    (by decide) rfl (rangeOrder_refl _) rfl rfl rfl
    (fun e he => absurd he (List.not_mem_nil e))
    (by
      intro k2 e2 h2 _
      by_contra hne
      have hne2 : ¬ k2 = "ns/k" := hne
      have hnone : AList.lookup k2 (Rec.deletePending).entries = none := by
        unfold Rec.deletePending
        simp only []
        rw [AList.lookup_insert_ne hne2]
        rfl
      rw [hnone] at h2
      cases h2)⟩

/-- Counterexample to C3: `ns1/x` is added and `ns2/x` deleted in one window that commits
to a table keyed by name.  The last event for the key `ns1/x` is an Add and the last event
for the key `ns2/x` is a Delete.  When the pending Add is applied first the table does not
contain the added record; when the pending Delete is applied first the row under the
primary key of the deleted record is present. -/
theorem last_event_per_key_decides_counterexample :
    foldWindow Rec.transform Rec.accessor Rec.addThenDeleteOther =
      Except.ok (some (Rec.deleteFirst none)) ∧
    rangeOrder (Rec.deleteFirst none) (Rec.addFirst none) ∧
    (commitBuffer Rec.transform (queryAllDefault Rec.byName) Rec.emptyDB
      (Rec.addFirst none)).db.table.get (Rec.byName Rec.x1) = none ∧
    (commitBuffer Rec.transform (queryAllDefault Rec.byName) Rec.emptyDB
      (Rec.deleteFirst none)).db.table.get (Rec.byName Rec.x2) = some Rec.x1 := by
  refine ⟨rfl, ⟨rfl, ?_⟩, by decide, by decide⟩
  exact List.Perm.swap _ _ _

/-- C4 as amended: after the commit of a window that holds only Replace(S), under a scope
predicate `P`, the rows matching `P` are exactly the records of transform(S), the last one
for each primary key, that match `P`; and a row that does not match `P` and whose primary
key is not the primary key of a record of transform(S) is in the table after the commit
exactly if it was there before. -/
theorem replace_scoped (transform : TransformFunc Raw Obj) (P : Obj → Bool) (db : DB pk)
    (S : List Raw) :
    Table.filter P (commitBuffer transform (queryWhere pk P) db (replaceOnly Obj S)).db.table =
      Table.filter P ((transformItems transform S).foldl Table.Insert (Table.empty pk)) ∧
    (∀ o, P o = false → pk o ∉ (transformItems transform S).map pk →
      (o ∈ (commitBuffer transform (queryWhere pk P) db (replaceOnly Obj S)).db.table.rows ↔
        o ∈ db.table.rows)) := by
  constructor
  · apply Table.ext_get
    intro k
    rw [Table.get_filter, Table.get_filter, commit_replaceOnly_get, get_foldl_Insert]
    cases lastRecord pk k (transformItems transform S) with
    | some o => rfl
    | none =>
      simp only [Table.get_empty]
      cases db.table.get k with
      | none => rfl
      | some o => cases hP : P o <;> simp [Option.filter, hP]
  · intro o hP hk
    rw [Table.mem_rows_iff, Table.mem_rows_iff, commit_replaceOnly_get,
      (lastRecord_eq_none_iff (pk o) (transformItems transform S)).2 hk]
    simp only []
    cases hg : db.table.get (pk o) with
    | none => simp [Option.filter]
    | some o2 =>
      cases hP2 : P o2 with
      | false => simp [Option.filter, hP2]
      | true =>
        simp only [Option.filter, hP2, Bool.not_true, Bool.false_eq_true, if_false,
          Option.some.injEq]
        constructor
        · intro h
          cases h
        · intro h
          rw [h, hP] at hP2
          cases hP2

/-- Witness of C4 as amended: the scope is the namespace `ns1`; the row `x` of namespace
`ns2` is outside the scope and the snapshot holds only the record `z`, so the row is in the
table after the commit as it was before. -/
theorem replace_scoped_witness :
    Rec.inNs1 Rec.x2 = false ∧
    Rec.byName Rec.x2 ∉ (transformItems Rec.transform [Rec.z1]).map Rec.byName ∧
    Rec.x2 ∈ Rec.dbWithX2.table.rows ∧
    (Rec.x2 ∈ (commitBuffer Rec.transform (queryWhere Rec.byName Rec.inNs1) Rec.dbWithX2
        (replaceOnly Rec [Rec.z1])).db.table.rows ↔
      Rec.x2 ∈ Rec.dbWithX2.table.rows) :=
  ⟨rfl, by decide, by decide,
   (replace_scoped Rec.transform Rec.inNs1 Rec.dbWithX2 [Rec.z1]).2 Rec.x2 rfl (by decide)⟩

/-- Counterexample to C4: the scope is the namespace `ns1` and the table is keyed by name.
A row `x` of namespace `ns2`, outside the scope, is replaced by the record `x` of the
snapshot; and a record `y` of namespace `ns2` in the snapshot is inserted although it is
outside the scope, so the rows in the scope are not the records of the snapshot. -/
theorem replace_scoped_counterexample :
    Rec.inNs1 Rec.x2 = false ∧ Rec.x2 ∈ Rec.dbWithX2.table.rows ∧
    (commitBuffer Rec.transform (queryWhere Rec.byName Rec.inNs1) Rec.dbWithX2
      (replaceOnly Rec [Rec.x1])).db.table.rows = [Rec.x1] ∧
    (Table.filter Rec.inNs1
      (commitBuffer Rec.transform (queryWhere Rec.byName Rec.inNs1) Rec.emptyDB
        (replaceOnly Rec [Rec.y2])).db.table).rows = [] ∧
    transformItems Rec.transform [Rec.y2] = [Rec.y2] := by
  decide

/-- C5: committing a window that holds only Replace(S) and then a second window that holds
the same Replace(S) leaves the database as the first commit left it, for every table, every
snapshot, every Transform and every scope predicate, the default scope of all rows
included. -/
theorem resync_idempotent (transform : TransformFunc Raw Obj) (P : Obj → Bool) (db : DB pk)
    (S : List Raw) :
    (commitBuffer transform (queryWhere pk P)
      (commitBuffer transform (queryWhere pk P) db (replaceOnly Obj S)).db (replaceOnly Obj S)).db =
      (commitBuffer transform (queryWhere pk P) db (replaceOnly Obj S)).db ∧
    (commitBuffer transform (queryAllDefault pk)
      (commitBuffer transform (queryAllDefault pk) db (replaceOnly Obj S)).db (replaceOnly Obj S)).db =
      (commitBuffer transform (queryAllDefault pk) db (replaceOnly Obj S)).db := by
  have key : ∀ Q : Obj → Bool,
      (commitBuffer transform (queryWhere pk Q)
        (commitBuffer transform (queryWhere pk Q) db (replaceOnly Obj S)).db (replaceOnly Obj S)).db =
        (commitBuffer transform (queryWhere pk Q) db (replaceOnly Obj S)).db := by
    intro Q
    have ht : (commitBuffer transform (queryWhere pk Q)
        (commitBuffer transform (queryWhere pk Q) db (replaceOnly Obj S)).db
          (replaceOnly Obj S)).db.table =
        (commitBuffer transform (queryWhere pk Q) db (replaceOnly Obj S)).db.table := by
      apply Table.ext_get
      intro k
      rw [commit_replaceOnly_get, commit_replaceOnly_get]
      cases lastRecord pk k (transformItems transform S) with
      | some o => rfl
      | none =>
        simp only []
        cases db.table.get k with
        | none => rfl
        | some o => cases hQ : Q o <;> simp [Option.filter, hQ]
    have hi : ∀ d : DB pk,
        (commitBuffer transform (queryWhere pk Q) d (replaceOnly Obj S)).db.initialized = true := by
      intro d
      rw [commitBuffer_initialized]
      simp [replaceOnly]
    have hext : ∀ d1 d2 : DB pk, d1.table = d2.table → d1.initialized = d2.initialized → d1 = d2 := by
      intro d1 d2 h1 h2
      cases d1; cases d2
      simp only [] at h1 h2
      rw [h1, h2]
    exact hext _ _ ht ((hi _).trans (hi _).symm)
  refine ⟨key P, ?_⟩
  rw [queryAllDefault_eq]
  exact key _

/-- C6 as amended: when the baseline of a window contains a record `r` and the mapping
holds a pending event for a record with the same primary key, and no other pending event
of the window has a record with that primary key, the table after the commit reflects the
pending event and not the baseline, in whatever order the pending events are applied: the
row is absent if the pending event is a Delete and holds its record otherwise.  The commit
performs the deletes and inserts of the baseline before those of the pending events. -/
theorem pending_event_overrides_baseline (transform : TransformFunc Raw Obj)
    (queryAll : QueryAllFunc pk) (db : DB pk) (buf buf2 : buffer Raw Obj) (items : List Raw)
    (item : Raw) (r : Obj) (k : String) (e : entry Obj)
    (hb : buf.replaceItems = some items) (_hitem : item ∈ items)
    (_hr : transform (Any.object item) = some r) (hpk : pk e.obj = pk r)
    (he : buf.entries.lookup k = some e)
    (huniq : ∀ k2 e2, buf.entries.lookup k2 = some e2 → pk e2.obj = pk e.obj → k2 = k)
    (horder : rangeOrder buf buf2) :
    buf2.replaceItems = some items ∧
    (commitBuffer transform queryAll db buf2).db.table.get (pk r) =
      (if e.deleted then none else some e.obj) ∧
    (commitBuffer transform queryAll db buf2).trace =
      [Op.WriteTxn, Op.QueryAll] ++ (queryAll db.table).map Op.Delete ++
        (transformItems transform items).map Op.Insert ++ [Op.InitDone] ++
        buf2.range.map (fun e2 => if e2.deleted then Op.Delete e2.obj else Op.Insert e2.obj) ++
        [Op.NumObjects, Op.Commit,
          Op.HealthOK (commitBuffer transform queryAll db buf2).numUpserted
            (commitBuffer transform queryAll db buf2).numDeleted
            (commitBuffer transform queryAll db buf2).numTotal] := by
  refine ⟨horder.1.trans hb, ?_, ?_⟩
  · rw [commitBuffer_table_get, ← hpk, lastEntry_of_lookup buf buf2 horder k e he huniq]
  · rw [commitBuffer_trace, horder.1.trans hb]
    simp

/-- Witness of C6 as amended: the baseline lists `ns/k` with value 1 and the only pending
event is the Update of `ns/k` to value 2; after the commit the row holds value 2. -/
theorem pending_event_overrides_baseline_witness :
    (commitBuffer Rec.transform (queryAllDefault Rec.byName) Rec.emptyDB
      { Rec.updatePending with replaceItems := some [⟨"ns", "k", 1⟩] }).db.table.get
        (Rec.byName ⟨"ns", "k", 1⟩) = some ⟨"ns", "k", 2⟩ :=
  (pending_event_overrides_baseline Rec.transform (queryAllDefault Rec.byName) Rec.emptyDB
    { Rec.updatePending with replaceItems := some [⟨"ns", "k", 1⟩] }
    { Rec.updatePending with replaceItems := some [⟨"ns", "k", 1⟩] }
    [⟨"ns", "k", 1⟩] ⟨"ns", "k", 1⟩ ⟨"ns", "k", 1⟩ "ns/k" ⟨false, "k", "ns", ⟨"ns", "k", 2⟩⟩
    rfl (List.mem_singleton.2 rfl) rfl rfl (by decide)
    (by
      intro k2 e2 h2 _
      by_contra hne
      have hnone : AList.lookup k2 (Rec.updatePending).entries = none := by
        unfold Rec.updatePending
        simp only []
        rw [AList.lookup_insert_ne hne]
        rfl
      have h3 : AList.lookup k2 (Rec.updatePending).entries = some e2 := h2
      rw [hnone] at h3
      cases h3)
    (rangeOrder_refl _)).2.1

/-- Counterexample to C6: the baseline holds `x` and two pending events, the Add of
`ns1/x` and the Delete of `ns2/x`, have records with the primary key of that row.  Ranged
over with the Add first the row is absent although an Add is pending for it; ranged over
with the Delete first the row is present although a Delete is pending for it. -/
theorem pending_event_overrides_baseline_counterexample :
    (Rec.addFirst (some [Rec.x0])).entries.lookup "ns1/x" = some Rec.addX1 ∧
    (Rec.addFirst (some [Rec.x0])).entries.lookup "ns2/x" = some Rec.deleteX2 ∧
    Rec.byName Rec.addX1.obj = Rec.byName Rec.x0 ∧
    Rec.byName Rec.deleteX2.obj = Rec.byName Rec.x0 ∧
    rangeOrder (Rec.addFirst (some [Rec.x0])) (Rec.deleteFirst (some [Rec.x0])) ∧
    (commitBuffer Rec.transform (queryAllDefault Rec.byName) Rec.emptyDB
      (Rec.addFirst (some [Rec.x0]))).db.table.get (Rec.byName Rec.x0) = none ∧
    (commitBuffer Rec.transform (queryAllDefault Rec.byName) Rec.emptyDB
      (Rec.deleteFirst (some [Rec.x0]))).db.table.get (Rec.byName Rec.x0) = some Rec.x1 := by
  refine ⟨by decide, by decide, by decide, by decide, ⟨rfl, ?_⟩, by decide, by decide⟩
  exact List.Perm.swap _ _ _

/-- C7 as amended: the window folded from any event sequence holds at most one pending
event per coalescing key; under the key of an Add, Update or Delete event that the
Transform accepts, and that no Replace and no event of the same key accepted by the
Transform follows, it holds that event (last write wins among the events that the
Transform accepts); and after a Replace its baseline is the payload of that Replace and
its pending events are events that came after that Replace. -/
theorem window_last_write_wins (transform : TransformFunc Raw Obj) (accessor : Accessor Raw)
    (evs : List (CacheStoreEvent Raw)) (w : buffer Raw Obj)
    (hw : foldWindow transform accessor evs = Except.ok (some w)) :
    w.entries.keys.Nodup ∧
    (∀ (front : List (CacheStoreEvent Raw)) (ev : CacheStoreEvent Raw)
      (back : List (CacheStoreEvent Raw)) (obj : Obj) (m : ObjectMeta),
      evs = front ++ ev :: back → ev.Kind ≠ CacheStoreEventReplace →
      transform ev.Obj = some obj → accessor ev.Obj = some m →
      (∀ e2 ∈ back, e2.Kind ≠ CacheStoreEventReplace ∧
        ∀ o2 m2, transform e2.Obj = some o2 → accessor e2.Obj = some m2 →
          coalescingKey m2.Namespace m2.Name ≠ coalescingKey m.Namespace m.Name) →
      w.entries.lookup (coalescingKey m.Namespace m.Name) =
        some { deleted := decide (ev.Kind = CacheStoreEventDelete), name := m.Name,
               namespace_ := m.Namespace, obj := obj }) ∧
    (∀ (front back : List (CacheStoreEvent Raw)) (S : Option (List Raw)),
      evs = front ++ { Kind := CacheStoreEventReplace, Obj := Any.slice S } :: back →
      (∀ e2 ∈ back, e2.Kind ≠ CacheStoreEventReplace) →
      w.replaceItems = S ∧
      ∀ k e, w.entries.lookup k = some e →
        ∃ ev ∈ back, eventEntry transform accessor ev = some (k, e)) := by
  refine ⟨w.entries.keys_nodup, ?_, ?_⟩
  · intro front ev back obj m hsplit hk ht ha hback
    subst hsplit
    unfold foldWindow at hw
    rw [foldFrom_append] at hw
    cases hf : foldFrom transform accessor none front with
    | error e => rw [hf] at hw; cases hw
    | ok b0 =>
      rw [hf] at hw
      exact foldFrom_last transform accessor b0 (some w) ev back obj m hw hk ht ha hback
  · intro front back S hsplit hback
    subst hsplit
    have h := foldWindow_after_replace transform accessor front back S (some w) hw
    obtain ⟨h1, _, h3⟩ := foldFrom_other transform accessor back hback _ _ h
    refine ⟨h1, ?_⟩
    intro k e hke
    have h4 := h3 k
    simp only [entriesOf] at h4
    rw [hke] at h4
    cases hfind : back.reverse.find? (hitsKey transform accessor k) with
    | none =>
      rw [hfind] at h4
      simp at h4
    | some ev =>
      rw [hfind] at h4
      have hmem : ev ∈ back := List.mem_reverse.1 (List.mem_of_find?_eq_some hfind)
      have hhit := List.find?_some hfind
      refine ⟨ev, hmem, ?_⟩
      unfold hitsKey at hhit
      cases he : eventEntry transform accessor ev with
      | none => rw [he] at hhit; cases hhit
      | some x =>
        simp only [he, Option.map_some', decide_eq_true_eq, Option.some.injEq] at hhit h4
        rw [← hhit, h4]

/-- Witness of C7 as amended: in the window of an Add and an Update of the same object the
Update is the pending event. -/
theorem window_last_write_wins_witness :
    foldWindow Rec.transform Rec.accessor Rec.addThenUpdate = Except.ok (some Rec.updatePending) ∧
    Rec.updatePending.entries.lookup "ns/k" = some ⟨false, "k", "ns", ⟨"ns", "k", 2⟩⟩ :=
  ⟨rfl,
   (window_last_write_wins Rec.transform Rec.accessor Rec.addThenUpdate Rec.updatePending
      rfl).2.1
      [{ Kind := CacheStoreEventAdd, Obj := Any.object ⟨"ns", "k", 1⟩ }]
      { Kind := CacheStoreEventUpdate, Obj := Any.object ⟨"ns", "k", 2⟩ } []
      ⟨"ns", "k", 2⟩ ⟨"k", "ns"⟩ rfl (by decide) rfl rfl
      (fun e he => absurd he (List.not_mem_nil e))⟩

/-- Counterexample to C7: with a Transform that skips objects of value zero, an Add of
`ns/k` with value 1 is followed by an Update of `ns/k` to value 0.  The Update is the
latest event for the key `ns/k`, but the Transform skips it and the window keeps the Add
as the pending event of that key; the commit then writes the row with value 1. -/
theorem window_last_write_wins_counterexample :
    foldWindow Rec.nonZero Rec.accessor Rec.addThenZeroUpdate =
      Except.ok (some Rec.addPending) ∧
    Rec.accessor (Any.object ⟨"ns", "k", 0⟩) = some { Name := "k", Namespace := "ns" } ∧
    Rec.nonZero (Any.object ⟨"ns", "k", 0⟩) = none ∧
    Rec.addPending.entries.lookup (coalescingKey "ns" "k") =
      some ⟨false, "k", "ns", ⟨"ns", "k", 1⟩⟩ ∧
    (commitBuffer Rec.nonZero (queryAllDefault Rec.byName) Rec.emptyDB
      Rec.addPending).db.table.rows = [⟨"ns", "k", 1⟩] :=
  ⟨rfl, rfl, rfl, by decide, by decide⟩

/-- C8: an Add, Update or Delete event whose record the Transform rejects leaves
the window as it was (an absent window becomes the empty one); in `commitBuffer` a
rejected baseline item changes nothing, the commit is the one of the baseline
without that item, and the inserts of the baseline are exactly the accepted items
in their order.  The other items are inserted into the table: the committed table is
the old one with the rows of the scope query deleted, the accepted items inserted in
order and the pending events applied; so an accepted item is the row under its primary
key unless a later accepted item or a pending event has that primary key. -/
theorem transform_rejection_drops (transform : TransformFunc Raw Obj) (accessor : Accessor Raw)
    (queryAll : QueryAllFunc pk) :
    (∀ (buf : Option (buffer Raw Obj)) (ev : CacheStoreEvent Raw),
      ev.Kind ≠ CacheStoreEventReplace → transform ev.Obj = none →
      bufferFn transform accessor buf ev =
        Except.ok (match buf with
          | some b => b
          | none => { replaceItems := none, entries := ∅ })) ∧
    (∀ (db : DB pk) (buf : buffer Raw Obj) (front : List Raw) (item : Raw) (back : List Raw),
      buf.replaceItems = some (front ++ item :: back) → transform (Any.object item) = none →
      commitBuffer transform queryAll db buf =
        commitBuffer transform queryAll db { buf with replaceItems := some (front ++ back) }) ∧
    (∀ (db : DB pk) (buf : buffer Raw Obj) (items : List Raw),
      buf.replaceItems = some items →
      (commitBuffer transform queryAll db buf).trace =
        [Op.WriteTxn, Op.QueryAll] ++ (queryAll db.table).map Op.Delete ++
          (items.filterMap (fun item => transform (Any.object item))).map Op.Insert ++
          [Op.InitDone] ++
          buf.range.map (fun e => if e.deleted then Op.Delete e.obj else Op.Insert e.obj) ++
          [Op.NumObjects, Op.Commit,
            Op.HealthOK (commitBuffer transform queryAll db buf).numUpserted
              (commitBuffer transform queryAll db buf).numDeleted
              (commitBuffer transform queryAll db buf).numTotal]) ∧
    (∀ (db : DB pk) (buf : buffer Raw Obj) (items : List Raw),
      buf.replaceItems = some items →
      (commitBuffer transform queryAll db buf).db.table =
        buf.range.foldl (fun t e => if e.deleted then t.Delete e.obj else t.Insert e.obj)
          ((items.filterMap (fun item => transform (Any.object item))).foldl Table.Insert
            ((queryAll db.table).foldl Table.Delete db.table))) ∧
    (∀ (db : DB pk) (buf : buffer Raw Obj) (front : List Raw) (item : Raw) (back : List Raw)
      (o : Obj),
      buf.replaceItems = some (front ++ item :: back) → transform (Any.object item) = some o →
      (∀ i ∈ back, ∀ o2, transform (Any.object i) = some o2 → pk o2 ≠ pk o) →
      (∀ e ∈ buf.range, pk e.obj ≠ pk o) →
      (commitBuffer transform queryAll db buf).db.table.get (pk o) = some o) := by
  refine ⟨?_, ?_, ?_, ?_, ?_⟩
  · intro buf ev hk ht
    cases buf <;> simp [bufferFn, hk, ht]
  · intro db buf front item back hb ht
    have hstep : ∀ txn : Txn pk,
        (front ++ item :: back).foldl (replaceStep transform) txn =
          (front ++ back).foldl (replaceStep transform) txn := by
      intro txn
      simp only [List.foldl_append, List.foldl_cons]
      congr 1
      simp [replaceStep, ht]
    unfold commitBuffer
    simp only [hb, replaceAll, hstep, buffer.range]
  · intro db buf items hb
    rw [commitBuffer_trace, hb]
    simp [transformItems]
  · intro db buf items hb
    exact commitBuffer_table_of_baseline transform queryAll db buf items hb
  · intro db buf front item back o hb ht hback hpend
    have hlast : lastRecord pk (pk o) (transformItems transform (front ++ item :: back)) =
        some o := by
      rw [transformItems_split transform front back item o ht]
      apply lastRecord_split (pk o) _ _ o rfl
      intro o2 ho2
      obtain ⟨i, hi, hio⟩ := List.mem_filterMap.1 ho2
      exact hback i hi o2 hio
    rw [commitBuffer_table_get, (lastEntry_eq_none_iff (pk o) buf.range).2 hpend, hb]
    simp only [replaceAll, foldl_replaceStep_table, get_foldl_Insert, hlast]

/-- Witness of C8: with a Transform that skips objects of value zero, an Add of such an
object leaves the absent window empty, and a baseline holding the items `a`, `z` with
value zero and `b` commits like the baseline without `z`: the table holds the rows `a` and
`b`, and `b`, the item after the skipped one, is the row under its primary key. -/
theorem transform_rejection_drops_witness :
    (({ Kind := CacheStoreEventAdd, Obj := Any.object ⟨"", "z", 0⟩ } : CacheStoreEvent Rec).Kind ≠
        CacheStoreEventReplace ∧
      Rec.nonZero (Any.object ⟨"", "z", 0⟩) = none ∧
      bufferFn Rec.nonZero Rec.accessor none
        { Kind := CacheStoreEventAdd, Obj := Any.object ⟨"", "z", 0⟩ } =
        Except.ok { replaceItems := none, entries := ∅ }) ∧
    commitBuffer Rec.nonZero (queryAllDefault Rec.byName) Rec.emptyDB Rec.baselineWithZero =
      commitBuffer Rec.nonZero (queryAllDefault Rec.byName) Rec.emptyDB
        { Rec.baselineWithZero with replaceItems := some ([⟨"", "a", 1⟩] ++ [⟨"", "b", 2⟩]) } ∧
    (commitBuffer Rec.nonZero (queryAllDefault Rec.byName) Rec.dbWithK
      Rec.baselineWithZero).db.table.rows = [⟨"", "a", 1⟩, ⟨"", "b", 2⟩] ∧
    (commitBuffer Rec.nonZero (queryAllDefault Rec.byName) Rec.dbWithK
      Rec.baselineWithZero).db.table.get (Rec.byName ⟨"", "b", 2⟩) = some ⟨"", "b", 2⟩ :=
  ⟨⟨by decide, rfl,
    (transform_rejection_drops Rec.nonZero Rec.accessor (queryAllDefault Rec.byName)).1 none
      { Kind := CacheStoreEventAdd, Obj := Any.object ⟨"", "z", 0⟩ } (by decide) rfl⟩,
   (transform_rejection_drops Rec.nonZero Rec.accessor (queryAllDefault Rec.byName)).2.1
      Rec.emptyDB Rec.baselineWithZero [⟨"", "a", 1⟩] ⟨"", "z", 0⟩ [⟨"", "b", 2⟩] rfl rfl,
   by decide,
   (transform_rejection_drops Rec.nonZero Rec.accessor (queryAllDefault Rec.byName)).2.2.2.2
      Rec.dbWithK Rec.baselineWithZero [⟨"", "a", 1⟩, ⟨"", "z", 0⟩] ⟨"", "b", 2⟩ []
      ⟨"", "b", 2⟩ rfl rfl (fun i hi => absurd hi (List.not_mem_nil i))
      (fun e he => absurd he (List.not_mem_nil e))⟩

/-- C9: with the gate not ready at the start, a commit calls `initDone` exactly
when its window has a baseline; over a sequence of commits the gate is not ready
as long as no window had a baseline, is ready after the first window with one,
and is ready after every later commit. -/
theorem initializer_fires_iff_baseline (transform : TransformFunc Raw Obj)
    (queryAll : QueryAllFunc pk) (db : DB pk) (h0 : db.initialized = false) :
    (∀ (d : DB pk) (buf : buffer Raw Obj),
      Op.InitDone ∈ (commitBuffer transform queryAll d buf).trace ↔ buf.replaceItems ≠ none) ∧
    (∀ (d : DB pk) (buf : buffer Raw Obj),
      (commitBuffer transform queryAll d buf).db.initialized =
        (d.initialized || buf.replaceItems.isSome)) ∧
    (∀ (front : List (buffer Raw Obj)) (b : buffer Raw Obj) (back : List (buffer Raw Obj)),
      (∀ x ∈ front, x.replaceItems = none) → b.replaceItems ≠ none →
      (commitAll transform queryAll db front).initialized = false ∧
      (commitAll transform queryAll db (front ++ [b])).initialized = true ∧
      (commitAll transform queryAll db (front ++ b :: back)).initialized = true) := by
  refine ⟨?_, ?_, ?_⟩
  · intro d buf
    rw [commitBuffer_trace]
    cases hb : buf.replaceItems with
    | none =>
      simp only [List.append_nil, List.mem_append, List.mem_singleton, List.mem_map, ne_eq,
        not_true_eq_false, iff_false, not_or, not_exists, not_and]
      refine ⟨⟨by simp, ?_⟩, by simp⟩
      intro e _
      cases e.deleted <;> simp
    | some items => simp
  · intro d buf
    exact commitBuffer_initialized transform queryAll d buf
  · intro front b back hfront hb
    have hb2 : b.replaceItems.isSome = true := by
      cases h : b.replaceItems with
      | none => exact absurd h hb
      | some _ => rfl
    refine ⟨?_, ?_, ?_⟩
    · rw [commitAll_initialized, h0, Bool.false_or]
      apply Bool.eq_false_iff.2
      intro hany
      obtain ⟨x, hx, hsome⟩ := List.any_eq_true.1 hany
      rw [hfront x hx] at hsome
      cases hsome
    · rw [commitAll_initialized]
      simp [hb2]
    · rw [commitAll_initialized]
      simp [hb2]

/-- Witness of C9: starting not ready, the gate is still not ready after a window without
baseline, ready after the following window with a baseline, and ready after one more
window without baseline. -/
theorem initializer_fires_iff_baseline_witness :
    Rec.emptyDB.initialized = false ∧
    (commitAll Rec.transform (queryAllDefault Rec.byName) Rec.emptyDB
      [Rec.updatePending]).initialized = false ∧
    (commitAll Rec.transform (queryAllDefault Rec.byName) Rec.emptyDB
      ([Rec.updatePending] ++ [Rec.emptyBaseline])).initialized = true ∧
    (commitAll Rec.transform (queryAllDefault Rec.byName) Rec.emptyDB
      ([Rec.updatePending] ++ Rec.emptyBaseline :: [Rec.updatePending])).initialized = true :=
  ⟨rfl,
   (initializer_fires_iff_baseline Rec.transform (queryAllDefault Rec.byName) Rec.emptyDB
      rfl).2.2 [Rec.updatePending] Rec.emptyBaseline [Rec.updatePending]
      (by intro x hx; rw [List.mem_singleton.1 hx]; rfl) (by decide)⟩

/-- C10: the total that `commitBuffer` reports to the health reporter, the last
thing it does, is the number of rows of the table state that the commit produces. -/
theorem commit_total_is_row_count (transform : TransformFunc Raw Obj) (queryAll : QueryAllFunc pk)
    (db : DB pk) (buf : buffer Raw Obj) :
    (commitBuffer transform queryAll db buf).numTotal =
        (commitBuffer transform queryAll db buf).db.table.NumObjects ∧
    (commitBuffer transform queryAll db buf).db.table.NumObjects =
        (commitBuffer transform queryAll db buf).db.table.rows.length ∧
    (commitBuffer transform queryAll db buf).trace.getLast? =
        some (Op.HealthOK (commitBuffer transform queryAll db buf).numUpserted
          (commitBuffer transform queryAll db buf).numDeleted
          (commitBuffer transform queryAll db buf).db.table.NumObjects) := by
  refine ⟨rfl, rfl, ?_⟩
  have h3 : ∀ (l : List (Op Obj)) (a b c : Op Obj), (l ++ [a, b, c]).getLast? = some c := by
    intro l a b c
    rw [show l ++ [a, b, c] = (l ++ [a, b]) ++ [c] by simp]
    exact List.getLast?_concat _
  exact h3 _ _ _ _

/-- C11: `cacheStoreListener.Replace` never hands a nil list to its handler: a nil list
becomes the empty non-nil one and a non-nil list is passed unchanged, and the error is
nil; so the event that reaches the buffering function carries a non-nil list, the window
built from it has its baseline present, and for a nil or empty list the commit of that
window deletes every row matching the scope predicate, leaves the other rows, and marks the
table initialized. -/
theorem listener_replace_never_nil {Out : Type} (s : cacheStoreListener Raw Out)
    (items : Option (List Raw)) (rv : String) (transform : TransformFunc Raw Obj)
    (accessor : Accessor Raw) (buf : Option (buffer Raw Obj)) (P : Obj → Bool) (db : DB pk) :
    s.Replace items rv = (s.onReplace (some (items.getD [])), none) ∧
    (observableStore Raw).Replace items rv =
      ([{ Kind := CacheStoreEventReplace, Obj := Any.slice (some (items.getD [])) }], none) ∧
    bufferFn transform accessor buf
        { Kind := CacheStoreEventReplace, Obj := Any.slice (some (items.getD [])) } =
      Except.ok { replaceItems := some (items.getD []), entries := ∅ } ∧
    (items.getD [] = [] →
      (commitBuffer transform (queryWhere pk P) db
        { replaceItems := some (items.getD []), entries := ∅ }).db.table =
          Table.filter (fun o => !P o) db.table ∧
      (∀ o ∈ db.table.rows, P o = true →
        Op.Delete o ∈ (commitBuffer transform (queryWhere pk P) db
          { replaceItems := some (items.getD []), entries := ∅ }).trace) ∧
      Op.InitDone ∈ (commitBuffer transform (queryWhere pk P) db
        { replaceItems := some (items.getD []), entries := ∅ }).trace ∧
      (commitBuffer transform (queryWhere pk P) db
        { replaceItems := some (items.getD []), entries := ∅ }).db.initialized = true) := by
  refine ⟨?_, ?_, bufferFn_replace transform accessor buf _, ?_⟩
  · cases items <;> rfl
  · cases items <;> rfl
  · intro hnil
    rw [hnil]
    refine ⟨?_, ?_, ?_, ?_⟩
    · apply Table.ext_get
      intro k
      have h : (commitBuffer transform (queryWhere pk P) db
          (replaceOnly Obj ([] : List Raw))).db.table.get k = _ :=
        commit_replaceOnly_get transform P db [] k
      simp only [replaceOnly] at h
      rw [h, Table.get_filter]
      rfl
    · intro o ho hP
      have hm : Op.Delete o ∈ (queryWhere pk P db.table).map Op.Delete :=
        List.mem_map.2 ⟨o, List.mem_filter.2 ⟨ho, hP⟩, rfl⟩
      rw [commitBuffer_trace]
      simp only [List.mem_append, List.mem_cons, hm, true_or, or_true]
    · rw [commitBuffer_trace]
      simp
    · rw [commitBuffer_initialized]
      simp

/-- Witness of C11: for the nil list the store built by `ListerWatcherToObservable` emits
a Replace with the empty non-nil list, and the commit of the window built from it empties
a table that held one row, with the default scope of all rows. -/
theorem listener_replace_never_nil_witness :
    ((none : Option (List Rec)).getD [] = []) ∧
    (observableStore Rec).Replace none "1" =
      ([{ Kind := CacheStoreEventReplace, Obj := Any.slice (some []) }], none) ∧
    (commitBuffer Rec.transform (queryWhere Rec.byName (fun _ => true)) Rec.dbWithK
      { replaceItems := some ((none : Option (List Rec)).getD []), entries := ∅ }).db.table =
        Table.filter (fun o => !(fun _ => true) o) Rec.dbWithK.table :=
  ⟨rfl,
   (listener_replace_never_nil (observableStore Rec) none "1" Rec.transform Rec.accessor none
      (fun _ => true) Rec.dbWithK).2.1,
   ((listener_replace_never_nil (observableStore Rec) none "1" Rec.transform Rec.accessor none
      (fun _ => true) Rec.dbWithK).2.2.2 rfl).1⟩

/-- C13: `RegisterReflector` returns `errListerWatcherNil` exactly when the ListerWatcher
of the configuration is nil, and then opens no write transaction, registers no
initializer and adds no job; otherwise it returns nil after one write transaction that
registers the initializer `k8s-reflector` and is committed, and after adding exactly one
job, which runs the reflector of the configuration with its defaults filled in. -/
theorem register_fails_iff_no_listerwatcher {LW : Type} (typeName : String)
    (h : Hive Raw LW pk) (cfg : ReflectorConfig Raw LW pk) :
    ((RegisterReflector typeName h cfg).1 = some errListerWatcherNil ↔
      cfg.ListerWatcher = none) ∧
    (cfg.ListerWatcher = none → (RegisterReflector typeName h cfg).2 = h) ∧
    (cfg.ListerWatcher ≠ none →
      (RegisterReflector typeName h cfg).1 = none ∧
      (RegisterReflector typeName h cfg).2 =
        { writeTxns := h.writeTxns + 1
          commits := h.commits + 1
          initializers := h.initializers ++ ["k8s-reflector"]
          jobs := h.jobs ++
            [{ name := "k8s-reflector-[" ++ typeName ++ "]", reflector := cfg.withDefaults }] }) := by
  unfold RegisterReflector
  cases hl : cfg.ListerWatcher with
  | none => simp
  | some lw => simp

/-- Witness of C13: registering a configuration with a ListerWatcher on an empty hive
returns nil and leaves one write transaction, one initializer and one job. -/
theorem register_fails_iff_no_listerwatcher_witness :
    Rec.zeroConfig.ListerWatcher ≠ none ∧
    (RegisterReflector "Rec" Rec.emptyHive Rec.zeroConfig).1 = none ∧
    (RegisterReflector "Rec" Rec.emptyHive Rec.zeroConfig).2 =
      { writeTxns := Rec.emptyHive.writeTxns + 1
        commits := Rec.emptyHive.commits + 1
        initializers := Rec.emptyHive.initializers ++ ["k8s-reflector"]
        jobs := Rec.emptyHive.jobs ++
          [{ name := "k8s-reflector-[" ++ "Rec" ++ "]", reflector := Rec.zeroConfig.withDefaults }] } :=
  ⟨by decide,
   (register_fails_iff_no_listerwatcher "Rec" Rec.emptyHive Rec.zeroConfig).2.2 (by decide)⟩

/-- C14: `withDefaults` returns a configuration whose BufferSize is 10000 if the given one
is zero and the given one otherwise, whose BufferWaitTime is 50 ms if the given one is
zero and the given one otherwise, and whose ListerWatcher, Transform and QueryAll are the
given ones. -/
theorem withDefaults_fields {LW : Type} (cfg : ReflectorConfig Raw LW pk) :
    cfg.withDefaults.BufferSize = (if cfg.BufferSize = 0 then 10000 else cfg.BufferSize) ∧
    cfg.withDefaults.BufferWaitTime =
      (if cfg.BufferWaitTime = 0 then 50 * Millisecond else cfg.BufferWaitTime) ∧
    50 * Millisecond = 50000000 ∧
    cfg.withDefaults.ListerWatcher = cfg.ListerWatcher ∧
    cfg.withDefaults.Transform = cfg.Transform ∧
    cfg.withDefaults.QueryAll = cfg.QueryAll := by
  unfold ReflectorConfig.withDefaults DefaultBufferSize DefaultBufferWaitTime
  by_cases h1 : cfg.BufferSize = 0 <;> by_cases h2 : cfg.BufferWaitTime = 0 <;>
    simp [h1, h2, Millisecond]

/-- C16: for a window in which pending entries with distinct coalescing keys have records
with distinct primary keys, every order of applying the pending entries gives the same
committed database and the same inserted, deleted and total counts. -/
theorem commit_order_independent (transform : TransformFunc Raw Obj)
    (queryAll : QueryAllFunc pk) (db : DB pk) (w w2 : buffer Raw Obj)
    (hdistinct : ∀ k1 k2 e1 e2, w.entries.lookup k1 = some e1 → w.entries.lookup k2 = some e2 →
      k1 ≠ k2 → pk e1.obj ≠ pk e2.obj)
    (horder : rangeOrder w w2) :
    (commitBuffer transform queryAll db w2).db = (commitBuffer transform queryAll db w).db ∧
    (commitBuffer transform queryAll db w2).numUpserted =
      (commitBuffer transform queryAll db w).numUpserted ∧
    (commitBuffer transform queryAll db w2).numDeleted =
      (commitBuffer transform queryAll db w).numDeleted ∧
    (commitBuffer transform queryAll db w2).numTotal =
      (commitBuffer transform queryAll db w).numTotal := by
  have hperm : w2.range.Perm w.range := by
    unfold buffer.range
    exact horder.2.map Sigma.snd
  have hinj : ∀ e1 ∈ w.range, ∀ e2 ∈ w.range, pk e1.obj = pk e2.obj → e1 = e2 := by
    intro e1 h1 e2 h2 hpk
    obtain ⟨k1, hk1⟩ := (mem_range_iff w e1).1 h1
    obtain ⟨k2, hk2⟩ := (mem_range_iff w e2).1 h2
    by_cases hk : k1 = k2
    · rw [hk, hk2] at hk1
      exact (Option.some.inj hk1).symm
    · exact absurd hpk (hdistinct k1 k2 e1 e2 hk1 hk2 hk)
  have htable : (commitBuffer transform queryAll db w2).db.table =
      (commitBuffer transform queryAll db w).db.table := by
    apply Table.ext_get
    intro k
    rw [commitBuffer_table_get, commitBuffer_table_get, lastEntry_perm w.range w2.range hperm hinj k,
      horder.1]
  have hdb : (commitBuffer transform queryAll db w2).db =
      (commitBuffer transform queryAll db w).db := by
    apply DB.ext_fields _ _ htable
    rw [commitBuffer_initialized, commitBuffer_initialized, horder.1]
  refine ⟨hdb, ?_, ?_, ?_⟩
  · rw [(commitBuffer_counts transform queryAll db w2).1,
      (commitBuffer_counts transform queryAll db w).1, horder.1,
      (hperm.filter _).length_eq]
  · rw [(commitBuffer_counts transform queryAll db w2).2,
      (commitBuffer_counts transform queryAll db w).2, horder.1,
      (hperm.filter _).length_eq]
  · show (commitBuffer transform queryAll db w2).db.table.NumObjects =
      (commitBuffer transform queryAll db w).db.table.NumObjects
    rw [htable]

/-- Witness of C16: the pending Add of `ns1/x` and the pending Delete of `ns2/y` have
records with different names; applied in either order to a table keyed by name they leave
the same database. -/
theorem commit_order_independent_witness :
    rangeOrder Rec.twoPending Rec.twoPendingSwapped ∧
    (commitBuffer Rec.transform (queryAllDefault Rec.byName) Rec.dbWithK
      Rec.twoPendingSwapped).db =
    (commitBuffer Rec.transform (queryAllDefault Rec.byName) Rec.dbWithK Rec.twoPending).db :=
  ⟨⟨rfl, List.Perm.swap _ _ _⟩,
   (commit_order_independent Rec.transform (queryAllDefault Rec.byName) Rec.dbWithK
      Rec.twoPending Rec.twoPendingSwapped
      (by
        intro k1 k2 e1 e2 h1 h2 hne
        have m1 : Sigma.mk k1 e1 ∈
            [(⟨"ns2/y", Rec.deleteY2⟩ : Sigma (fun _ : String => entry Rec)),
             ⟨"ns1/x", Rec.addX1⟩] := AList.mem_lookup_iff.1 h1
        have m2 : Sigma.mk k2 e2 ∈
            [(⟨"ns2/y", Rec.deleteY2⟩ : Sigma (fun _ : String => entry Rec)),
             ⟨"ns1/x", Rec.addX1⟩] := AList.mem_lookup_iff.1 h2
        simp only [List.mem_cons, List.mem_singleton, Sigma.mk.inj_iff, heq_iff_eq,
          List.mem_nil_iff, or_false] at m1 m2
        rcases m1 with ⟨a1, b1⟩ | ⟨a1, b1⟩ <;> rcases m2 with ⟨a2, b2⟩ | ⟨a2, b2⟩
        · exact absurd (a1.trans a2.symm) hne
        · rw [b1, b2]; decide
        · rw [b1, b2]; decide
        · exact absurd (a1.trans a2.symm) hne)
      ⟨rfl, List.Perm.swap _ _ _⟩).1⟩

/-- C17: on objects whose names contain no slash the coalescing key tells objects apart:
two namespace and name pairs have the same key exactly if they are the same pair; so the
buffering function, storing an event of one object, leaves the pending event of every
other object in the window as it was. -/
theorem coalescingKey_injective (ns1 n1 ns2 n2 : String) (h1 : '/' ∉ n1.data)
    (h2 : '/' ∉ n2.data) :
    (coalescingKey ns1 n1 = coalescingKey ns2 n2 ↔ (ns1, n1) = (ns2, n2)) ∧
    (∀ (R O : Type) (transform : TransformFunc R O) (accessor : Accessor R) (b w : buffer R O)
      (ev : CacheStoreEvent R),
      ev.Kind ≠ CacheStoreEventReplace →
      accessor ev.Obj = some { Name := n2, Namespace := ns2 } →
      bufferFn transform accessor (some b) ev = Except.ok w →
      (ns1, n1) ≠ (ns2, n2) →
      w.entries.lookup (coalescingKey ns1 n1) = b.entries.lookup (coalescingKey ns1 n1)) := by
  have hiff : coalescingKey ns1 n1 = coalescingKey ns2 n2 ↔ (ns1, n1) = (ns2, n2) := by
    constructor
    · intro h
      obtain ⟨g1, g2⟩ := coalescingKey_inj ns1 n1 ns2 n2 h1 h2 h
      rw [g1, g2]
    · intro h
      rw [(Prod.mk.inj h).1, (Prod.mk.inj h).2]
  refine ⟨hiff, ?_⟩
  intro R O transform accessor b w ev hk ha hw hne
  obtain ⟨_, _, g3⟩ := bufferFn_ok_other transform accessor (some b) ev w hk hw
  rw [g3]
  unfold eventEntry
  cases ht : transform ev.Obj with
  | none => rfl
  | some obj =>
    simp only [ha, entriesOf]
    exact AList.lookup_insert_ne (fun e => hne (hiff.1 e))

/-- Witness of C17: the objects `ns1/x` and `ns2/x` have different keys, and the key of
`ns1/x` is the one of `ns1/x` alone. -/
theorem coalescingKey_injective_witness :
    '/' ∉ "x".data ∧
    (coalescingKey "ns1" "x" = coalescingKey "ns2" "x" ↔ ("ns1", "x") = ("ns2", "x")) :=
  ⟨by decide,
   (coalescingKey_injective "ns1" "x" "ns2" "x" (by decide) (by decide)).1⟩

/-- C18: the commit of a window without baseline is the same whatever the scope query
is, and performs neither the scope query nor the marking of the initializer; the
initializer flag stays as it was; every row whose primary key is not the primary key of
the record of a pending entry is as before; and when the mapping is empty as well the
table is unchanged and 0 inserted and 0 deleted are reported. -/
theorem commit_without_baseline (transform : TransformFunc Raw Obj)
    (queryAll : QueryAllFunc pk) (db : DB pk) (buf : buffer Raw Obj)
    (hnone : buf.replaceItems = none) :
    (∀ queryAll2 : QueryAllFunc pk,
      commitBuffer transform queryAll2 db buf = commitBuffer transform queryAll db buf) ∧
    Op.QueryAll ∉ (commitBuffer transform queryAll db buf).trace ∧
    Op.InitDone ∉ (commitBuffer transform queryAll db buf).trace ∧
    (commitBuffer transform queryAll db buf).db.initialized = db.initialized ∧
    (∀ k, (∀ e ∈ buf.range, pk e.obj ≠ k) →
      (commitBuffer transform queryAll db buf).db.table.get k = db.table.get k) ∧
    (buf.entries = ∅ →
      (commitBuffer transform queryAll db buf).db = db ∧
      (commitBuffer transform queryAll db buf).numUpserted = 0 ∧
      (commitBuffer transform queryAll db buf).numDeleted = 0) := by
  have hno : ∀ op : Op Obj, op = Op.QueryAll ∨ op = Op.InitDone →
      op ∉ (commitBuffer transform queryAll db buf).trace := by
    intro op hop
    rw [commitBuffer_trace, hnone]
    simp only [List.append_nil, List.mem_append, List.mem_singleton, List.mem_map, List.mem_cons,
      List.mem_nil_iff, or_false, not_or, not_exists, not_and]
    refine ⟨⟨?_, ?_⟩, ?_, ?_, ?_⟩
    · rcases hop with h | h <;> (rw [h]; simp)
    · intro e _ he
      rcases hop with h | h <;> (rw [h] at he; cases hd : e.deleted <;> simp [hd] at he)
    · rcases hop with h | h <;> (rw [h]; simp)
    · rcases hop with h | h <;> (rw [h]; simp)
    · rcases hop with h | h <;> (rw [h]; simp)
  refine ⟨?_, hno _ (Or.inl rfl), hno _ (Or.inr rfl), ?_, ?_, ?_⟩
  · intro q2
    unfold commitBuffer
    simp only [hnone]
  · rw [commitBuffer_initialized, hnone]
    simp
  · intro k hk
    rw [commitBuffer_table_get, (lastEntry_eq_none_iff k buf.range).2 hk, hnone]
  · intro hentries
    have hempty : buf.range = [] := by
      unfold buffer.range
      rw [hentries]
      rfl
    refine ⟨?_, ?_, ?_⟩
    · apply DB.ext_fields
      · apply Table.ext_get
        intro k
        rw [commitBuffer_table_get, hempty, hnone]
        rfl
      · rw [commitBuffer_initialized, hnone]
        simp
    · rw [(commitBuffer_counts transform queryAll db buf).1, hnone, hempty]
      rfl
    · rw [(commitBuffer_counts transform queryAll db buf).2, hnone, hempty]
      rfl

/-- Witness of C18: the window without baseline in which the Update of `ns/k` is pending
leaves the initializer flag as it was. -/
theorem commit_without_baseline_witness :
    Rec.updatePending.replaceItems = none ∧
    (commitBuffer Rec.transform (queryAllDefault Rec.byName) Rec.emptyDB
      Rec.updatePending).db.initialized = Rec.emptyDB.initialized :=
  ⟨rfl,
   (commit_without_baseline Rec.transform (queryAllDefault Rec.byName) Rec.emptyDB
      Rec.updatePending rfl).2.2.2.1⟩

end Claims

end k8s

namespace types

/-! ## Deep equality of nodes: lemmas and claims -/

section DeepEqualLemmas

variable {α : Type}

theorem zip_all_iff (eq : α → α → Bool) (heq : ∀ x y, eq x y = true ↔ x = y) :
    ∀ (x y : List α), x.length = y.length →
      ((x.zip y).all (fun p => eq p.1 p.2) = true ↔ x = y) := by
  intro x
  induction x with
  | nil =>
    intro y hl
    cases y with
    | nil => simp
    | cons b y => cases hl
  | cons a x ih =>
    intro y hl
    cases y with
    | nil => cases hl
    | cons b y =>
      have hl2 : x.length = y.length := Nat.succ.inj hl
      simp only [List.zip_cons_cons, List.all_cons, Bool.and_eq_true, heq, ih y hl2,
        List.cons.injEq]

theorem sameElements_iff (a b : Option (List α)) :
    sameElements a b ↔ a.getD [] = b.getD [] := by
  unfold sameElements
  constructor
  · rintro ⟨hl, hi⟩
    apply List.ext_getElem?
    intro i
    by_cases h : i < (a.getD []).length
    · exact hi i h
    · have h1 : (a.getD []).length ≤ i := Nat.le_of_not_lt h
      rw [List.getElem?_eq_none h1, List.getElem?_eq_none (hl ▸ h1)]
  · intro h
    rw [h]
    exact ⟨rfl, fun _ _ => rfl⟩

theorem sliceDeepEqual_iff (eq : α → α → Bool) (heq : ∀ x y, eq x y = true ↔ x = y)
    (a b : Option (List α)) :
    sliceDeepEqual eq a b = true ↔ sameElements a b := by
  rw [sameElements_iff]
  unfold sliceDeepEqual
  cases a with
  | none =>
    cases b with
    | none => simp
    | some y =>
      simp only [Option.isSome_none, Option.isSome_some, Bool.false_and, Option.isNone_none,
        Option.isNone_some, Bool.false_or, Option.getD_none, Option.getD_some]
      cases y with
      | nil => simp
      | cons b y => simp
  | some x =>
    cases b with
    | none =>
      simp only [Option.isSome_none, Option.isSome_some, Bool.and_false, Option.isNone_none,
        Option.isNone_some, Bool.false_or, Option.getD_none, Option.getD_some]
      cases x with
      | nil => simp
      | cons b x => simp
    | some y =>
      simp only [Option.isSome_some, Bool.and_self, Bool.true_or, if_true, Option.getD_some]
      by_cases hl : x.length = y.length
      · simp [hl, zip_all_iff eq heq x y hl]
      · have : x ≠ y := fun e => hl (by rw [e])
        simp [hl, this]

theorem ptrDeepEqual_iff (eq : α → α → Bool) (heq : ∀ x y, eq x y = true ↔ x = y)
    (a b : Option α) :
    ptrDeepEqual eq a b = true ↔ sameOptional a b := by
  unfold ptrDeepEqual sameOptional
  cases a <;> cases b <;> simp [heq, eq_comm]

end DeepEqualLemmas

section MapLemmas

theorem alist_same_iff (x y : AList (fun _ : String => String)) :
    (x.entries.length = y.entries.length ∧ ∀ kv ∈ x.entries, y.lookup kv.1 = some kv.2) ↔
      ∀ k v, x.lookup k = some v ↔ y.lookup k = some v := by
  have hx : x.entries.Nodup := x.nodupKeys.nodup
  have hy : y.entries.Nodup := y.nodupKeys.nodup
  constructor
  · rintro ⟨hl, hall⟩
    have hsub : x.entries ⊆ y.entries := by
      intro kv hkv
      have := hall kv hkv
      exact AList.mem_lookup_iff.1 this
    have hperm : x.entries.Perm y.entries :=
      (List.subperm_of_subset hx hsub).perm_of_length_le (le_of_eq hl.symm)
    intro k v
    constructor
    · intro h
      exact AList.mem_lookup_iff.2 (hperm.mem_iff.1 (AList.mem_lookup_iff.1 h))
    · intro h
      exact AList.mem_lookup_iff.2 (hperm.mem_iff.2 (AList.mem_lookup_iff.1 h))
  · intro h
    have hmem : ∀ kv, kv ∈ x.entries ↔ kv ∈ y.entries := by
      rintro ⟨k, v⟩
      constructor
      · intro hm
        exact AList.mem_lookup_iff.1 ((h k v).1 (AList.mem_lookup_iff.2 hm))
      · intro hm
        exact AList.mem_lookup_iff.1 ((h k v).2 (AList.mem_lookup_iff.2 hm))
    refine ⟨((List.perm_ext_iff_of_nodup hx hy).2 hmem).length_eq, ?_⟩
    rintro ⟨k, v⟩ hkv
    exact AList.mem_lookup_iff.2 ((hmem ⟨k, v⟩).1 hkv)

theorem entries_all_iff (x y : AList (fun _ : String => String)) :
    x.entries.all (fun kv =>
        match y.lookup kv.1 with
        | none => false
        | some otherValue => decide (kv.2 = otherValue)) = true ↔
      ∀ kv ∈ x.entries, y.lookup kv.1 = some kv.2 := by
  rw [List.all_eq_true]
  constructor
  · intro h kv hkv
    have := h kv hkv
    cases hl : y.lookup kv.1 with
    | none => rw [hl] at this; cases this
    | some ov =>
      rw [hl] at this
      have e : kv.2 = ov := by simpa using this
      rw [e]
  · intro h kv hkv
    rw [h kv hkv]
    simp

theorem mapDeepEqual_iff (a b : Option (AList (fun _ : String => String))) :
    mapDeepEqual a b = true ↔ sameMap a b := by
  unfold sameMap
  rw [← alist_same_iff, ← entries_all_iff]
  unfold mapDeepEqual
  cases a with
  | none =>
    cases b with
    | none => simp
    | some y =>
      simp only [Option.isSome_none, Option.isSome_some, Bool.false_and, Option.isNone_none,
        Option.isNone_some, Bool.false_or, Option.getD_none, Option.getD_some]
      by_cases hl : (∅ : AList (fun _ : String => String)).entries.length = y.entries.length
      · simp [hl]
      · simp [hl]
  | some x =>
    cases b with
    | none =>
      simp only [Option.isSome_none, Option.isSome_some, Bool.and_false, Option.isNone_none,
        Option.isNone_some, Bool.false_or, Option.getD_none, Option.getD_some]
      by_cases hl : x.entries.length = (∅ : AList (fun _ : String => String)).entries.length
      · simp [hl]
      · simp [hl]
    | some y =>
      simp only [Option.isSome_some, Bool.and_self, Bool.true_or, if_true, Option.getD_some]
      by_cases hl : x.entries.length = y.entries.length
      · simp [hl]
      · simp [hl]

end MapLemmas

section NodeClaims

variable {Address CIDR : Type}

theorem chain_ne {α : Type} [DecidableEq α] (a b : α) (r : Bool) :
    (if a ≠ b then false else r) = true ↔ a = b ∧ r = true := by
  by_cases h : a = b <;> simp [h]

theorem chain_not (t r : Bool) :
    (if (!t) = true then false else r) = true ↔ t = true ∧ r = true := by
  cases t <;> simp

theorem sliceDeepEqual_self {α : Type} (eq : α → α → Bool) (hrefl : ∀ x, eq x x = true)
    (a : Option (List α)) : sliceDeepEqual eq a a = true := by
  unfold sliceDeepEqual
  cases a with
  | none => simp
  | some x =>
    simp only [Option.isSome_some, Bool.and_self, Bool.true_or, if_true, Option.getD_some,
      ne_eq, not_true_eq_false, if_false]
    rw [List.all_eq_true]
    intro p hp
    have : p.1 = p.2 := by
      clear hrefl
      induction x with
      | nil => cases hp
      | cons c x ih =>
        rw [List.zip_cons_cons] at hp
        rcases List.mem_cons.1 hp with h | h
        · rw [h]
        · exact ih h
    rw [this]
    exact hrefl _

theorem sliceDeepEqual_variant {α : Type} (eq : α → α → Bool) (hrefl : ∀ x, eq x x = true)
    (a b : Option (List α)) (h : nilOrEmptySlice a b) :
    sliceDeepEqual eq a b = true ∧ sliceDeepEqual eq b a = true := by
  rcases h with h | ⟨h1, h2⟩ | ⟨h1, h2⟩
  · rw [h]
    exact ⟨sliceDeepEqual_self eq hrefl b, sliceDeepEqual_self eq hrefl b⟩
  · rw [h1, h2]
    exact ⟨rfl, rfl⟩
  · rw [h1, h2]
    exact ⟨rfl, rfl⟩

theorem ptrDeepEqual_self {α : Type} (eq : α → α → Bool) (hrefl : ∀ x, eq x x = true)
    (a : Option α) : ptrDeepEqual eq a a = true := by
  unfold ptrDeepEqual
  cases a <;> simp [hrefl]

theorem mapDeepEqual_variant (a b : Option (AList (fun _ : String => String)))
    (h : nilOrEmptyMap a b) : mapDeepEqual a b = true ∧ mapDeepEqual b a = true := by
  rcases h with h | ⟨h1, h2⟩ | ⟨h1, h2⟩
  · rw [h]
    exact ⟨(mapDeepEqual_iff b b).2 (fun _ _ => Iff.rfl), (mapDeepEqual_iff b b).2 (fun _ _ => Iff.rfl)⟩
  · rw [h1, h2]
    exact ⟨rfl, rfl⟩
  · rw [h1, h2]
    exact ⟨rfl, rfl⟩

/-- C15: `DeepEqual` of a node with nil is false, and with a node it is true exactly if
the two nodes are deeply equal field by field: equal scalars, slices of the same length
with equal elements at every index, optional CIDRs absent in both or present in both and
equal, and maps with the same key and value pairs; the `DeepEqual` of addresses and of
CIDRs is taken to be equality. -/
theorem deepEqual_iff_deeplyEqual (addrEq : Address → Address → Bool)
    (cidrEq : CIDR → CIDR → Bool) (haddr : ∀ x y, addrEq x y = true ↔ x = y)
    (hcidr : ∀ x y, cidrEq x y = true ↔ x = y) :
    (∀ in_ : Node Address CIDR, Node.DeepEqual addrEq cidrEq in_ none = false) ∧
    (∀ in_ other : Node Address CIDR,
      Node.DeepEqual addrEq cidrEq in_ (some other) = true ↔ Node.deeplyEqual in_ other) := by
  refine ⟨fun _ => rfl, ?_⟩
  intro in_ other
  have hnat : ∀ x y : Nat, (fun x y => decide (x = y)) x y = true ↔ x = y := by
    intro x y
    simp
  unfold Node.deeplyEqual
  rw [← sliceDeepEqual_iff addrEq haddr, ← ptrDeepEqual_iff cidrEq hcidr,
    ← ptrDeepEqual_iff cidrEq hcidr,
    ← sliceDeepEqual_iff cidrEq hcidr in_.IPv4SecondaryAllocCIDRs,
    ← sliceDeepEqual_iff cidrEq hcidr in_.IPv6SecondaryAllocCIDRs,
    ← sliceDeepEqual_iff _ hnat in_.IPv4HealthIP,
    ← sliceDeepEqual_iff _ hnat in_.IPv6HealthIP,
    ← sliceDeepEqual_iff _ hnat in_.IPv4IngressIP,
    ← sliceDeepEqual_iff _ hnat in_.IPv6IngressIP,
    ← mapDeepEqual_iff in_.Labels, ← mapDeepEqual_iff in_.Annotations]
  unfold Node.DeepEqual
  simp only [chain_ne, chain_not]
  simp

/-- Witness of C15: a node and its copy with empty, non-nil addresses and labels are
deeply equal, and `DeepEqual` says so. -/
theorem deepEqual_iff_deeplyEqual_witness :
    Node.DeepEqual (fun x y => decide (x = y)) (fun x y => decide (x = y)) Node.bare
      (some Node.bareEmpty) = true ∧
    (Node.DeepEqual (fun x y => decide (x = y)) (fun x y => decide (x = y)) Node.bare
      (some Node.bareEmpty) = true ↔ Node.deeplyEqual Node.bare Node.bareEmpty) :=
  ⟨by decide,
   (deepEqual_iff_deeplyEqual (fun x y : Nat => decide (x = y)) (fun x y : Nat => decide (x = y))
      (fun x y => by simp) (fun x y => by simp)).2 Node.bare Node.bareEmpty⟩

/-- C19: when two nodes differ only in that slice fields or map fields are nil in one and
empty but not nil in the other, `DeepEqual` is true in both directions; the `DeepEqual` of
addresses and of CIDRs is taken to hold of a value and itself. -/
theorem deepEqual_nil_or_empty (addrEq : Address → Address → Bool)
    (cidrEq : CIDR → CIDR → Bool) (haddr : ∀ x, addrEq x x = true)
    (hcidr : ∀ x, cidrEq x x = true) (a b : Node Address CIDR)
    (h : Node.nilEmptyVariant a b) :
    Node.DeepEqual addrEq cidrEq a (some b) = true ∧
    Node.DeepEqual addrEq cidrEq b (some a) = true := by
  obtain ⟨h1, h2, h3, h4, h5, h6, h7, h8, h9, h10, h11, h12, h13, h14, h15, h16, h17, h18, h19⟩ := h
  have hnat : ∀ x : Nat, (fun x y => decide (x = y)) x x = true := by
    intro x
    simp
  have g3 := sliceDeepEqual_variant addrEq haddr _ _ h3
  have g5 := sliceDeepEqual_variant cidrEq hcidr _ _ h5
  have g7 := sliceDeepEqual_variant cidrEq hcidr _ _ h7
  have g8 := sliceDeepEqual_variant (fun x y : Nat => decide (x = y)) hnat _ _ h8
  have g9 := sliceDeepEqual_variant (fun x y : Nat => decide (x = y)) hnat _ _ h9
  have g10 := sliceDeepEqual_variant (fun x y : Nat => decide (x = y)) hnat _ _ h10
  have g11 := sliceDeepEqual_variant (fun x y : Nat => decide (x = y)) hnat _ _ h11
  have g15 := mapDeepEqual_variant _ _ h15
  have g16 := mapDeepEqual_variant _ _ h16
  have g4 := ptrDeepEqual_self cidrEq hcidr b.IPv4AllocCIDR
  have g6 := ptrDeepEqual_self cidrEq hcidr b.IPv6AllocCIDR
  unfold Node.DeepEqual
  simp only [chain_ne, chain_not]
  refine ⟨⟨h1, h2, g3.1, h4 ▸ g4, g5.1, h6 ▸ g6, g7.1, g8.1, g9.1, g10.1, g11.1, h12, h13, h14,
    g15.1, g16.1, h17, h18, h19, trivial⟩,
    ⟨h1.symm, h2.symm, g3.2, h4 ▸ g4, g5.2, h6 ▸ g6, g7.2, g8.2, g9.2, g10.2, g11.2, h12.symm,
      h13.symm, h14.symm, g15.2, g16.2, h17.symm, h18.symm, h19.symm, trivial⟩⟩

/-- Witness of C19: the node with nil addresses and labels and the node with empty ones
are equal for `DeepEqual` in both directions. -/
theorem deepEqual_nil_or_empty_witness :
    Node.nilEmptyVariant Node.bare Node.bareEmpty ∧
    Node.DeepEqual (fun x y => decide (x = y)) (fun x y => decide (x = y)) Node.bare
      (some Node.bareEmpty) = true ∧
    Node.DeepEqual (fun x y => decide (x = y)) (fun x y => decide (x = y)) Node.bareEmpty
      (some Node.bare) = true :=
  ⟨⟨rfl, rfl, Or.inr (Or.inl ⟨rfl, rfl⟩), rfl, Or.inl rfl, rfl, Or.inl rfl, Or.inl rfl,
      Or.inl rfl, Or.inl rfl, Or.inl rfl, rfl, rfl, rfl, Or.inr (Or.inl ⟨rfl, rfl⟩), Or.inl rfl,
      rfl, rfl, rfl⟩,
   deepEqual_nil_or_empty (fun x y : Nat => decide (x = y)) (fun x y : Nat => decide (x = y))
      (fun x => by simp) (fun x => by simp) Node.bare Node.bareEmpty
      ⟨rfl, rfl, Or.inr (Or.inl ⟨rfl, rfl⟩), rfl, Or.inl rfl, rfl, Or.inl rfl, Or.inl rfl,
        Or.inl rfl, Or.inl rfl, Or.inl rfl, rfl, rfl, rfl, Or.inr (Or.inl ⟨rfl, rfl⟩), Or.inl rfl,
        rfl, rfl, rfl⟩⟩

end NodeClaims

end types
